import Mathlib

/-!
Verification of the QKD simulator core (backend/app/core) against its
natural-language specification.  Python code is shallowly embedded: bytes are
`List Nat` (each entry a byte value), bits are `List Nat` (0/1 entries),
Python floats that carry exact decimal values are embedded as `ℚ`, and the
entropy computation of privacy amplification (genuinely real-valued) as `ℝ`.
External library primitives (PyCryptodome's AES core, PBKDF2) are abstracted
as parameters of the embedding; everything written in the repository itself
is translated definition by definition.
-/

namespace QKDSpec

/-! ### Byte and chunk utilities

`chunksGo` splits a list into consecutive chunks of size `bs`, driven by a
fuel argument so that it is structurally recursive; `chunksPos bs l` is the
chunking of `l` into blocks of `bs` (`bs = 0` never occurs in the sources).
-/

def chunksGo (bs : Nat) : Nat → List α → List (List α)
  | 0, _ => []
  | _, [] => []
  | fuel + 1, l => l.take bs :: chunksGo bs fuel (l.drop bs)

def chunksPos (bs : Nat) (l : List α) : List (List α) :=
  chunksGo bs l.length l

theorem chunksGo_join (bs : Nat) (hbs : 0 < bs) :
    ∀ (fuel : Nat) (l : List α), l.length ≤ fuel → (chunksGo bs fuel l).flatten = l := by
  intro fuel
  induction fuel with
  | zero =>
    intro l hl
    cases l with
    | nil => rfl
    | cons a l => simp at hl
  | succ n ih =>
    intro l hl
    cases l with
    | nil => rfl
    | cons a l =>
      simp only [chunksGo, List.flatten_cons]
      rw [ih ((a :: l).drop bs)]
      · exact List.take_append_drop bs (a :: l)
      · simp only [List.length_drop, List.length_cons]
        simp only [List.length_cons] at hl
        omega

theorem chunksPos_join (bs : Nat) (hbs : 0 < bs) (l : List α) :
    (chunksPos bs l).flatten = l :=
  chunksGo_join bs hbs l.length l le_rfl

theorem chunksGo_mem_length (bs : Nat) (hbs : 0 < bs) :
    ∀ (fuel : Nat) (l : List α), l.length ≤ fuel → l.length % bs = 0 →
      ∀ c ∈ chunksGo bs fuel l, c.length = bs := by
  intro fuel
  induction fuel with
  | zero =>
    intro l hl _ c hc
    cases l with
    | nil => simp [chunksGo] at hc
    | cons a l => simp at hl
  | succ n ih =>
    intro l hl hmod c hc
    cases l with
    | nil => simp [chunksGo] at hc
    | cons a l =>
      simp only [chunksGo, List.mem_cons] at hc
      simp only [List.length_cons] at hl hmod
      have hlen : bs ≤ l.length + 1 := by
        by_contra hlt
        push_neg at hlt
        have := Nat.mod_eq_of_lt hlt
        omega
      rcases hc with hc | hc
      · subst hc
        simp [List.length_take, List.length_cons]
        omega
      · refine ih _ ?_ ?_ c hc
        · simp only [List.length_drop, List.length_cons]
          omega
        · simp only [List.length_drop, List.length_cons]
          have h1 : bs ∣ (l.length + 1) := Nat.dvd_iff_mod_eq_zero.mpr hmod
          have h2 : bs ∣ (l.length + 1 - bs) := Nat.dvd_sub' h1 dvd_rfl
          exact Nat.dvd_iff_mod_eq_zero.mp h2

theorem chunksPos_mem_length (bs : Nat) (hbs : 0 < bs) (l : List α)
    (hmod : l.length % bs = 0) : ∀ c ∈ chunksPos bs l, c.length = bs :=
  chunksGo_mem_length bs hbs l.length l le_rfl hmod

theorem chunksGo_of_flatten (bs : Nat) (hbs : 0 < bs) :
    ∀ (bl : List (List α)) (fuel : Nat), bl.flatten.length ≤ fuel →
      (∀ b ∈ bl, b.length = bs) → chunksGo bs fuel bl.flatten = bl := by
  intro bl
  induction bl with
  | nil =>
    intro fuel _ _
    cases fuel <;> rfl
  | cons b rest ih =>
    intro fuel hfuel hlen
    have hb : b.length = bs := hlen b (by simp)
    have hbne : b ≠ [] := by
      intro h
      rw [h] at hb
      simp at hb
      omega
    cases fuel with
    | zero =>
      exfalso
      simp only [List.flatten_cons, List.length_append] at hfuel
      have : 0 < b.length := by omega
      omega
    | succ n =>
      have hcons : ∃ a t, b ++ rest.flatten = a :: t := by
        cases b with
        | nil => exact absurd rfl hbne
        | cons a t => exact ⟨a, t ++ rest.flatten, rfl⟩
      obtain ⟨a, t, hat⟩ := hcons
      simp only [List.flatten_cons, hat, chunksGo]
      rw [← hat]
      have htake : (b ++ rest.flatten).take bs = b := by
        rw [← hb]; exact List.take_left b rest.flatten
      have hdrop : (b ++ rest.flatten).drop bs = rest.flatten := by
        rw [← hb]; exact List.drop_left b rest.flatten
      have hrest : rest.flatten.length ≤ n := by
        simp only [List.flatten_cons, List.length_append] at hfuel
        omega
      rw [htake, hdrop, ih n hrest (fun c hc => hlen c (by simp [hc]))]

theorem chunksPos_of_flatten (bs : Nat) (hbs : 0 < bs) (bl : List (List α))
    (h : ∀ b ∈ bl, b.length = bs) : chunksPos bs bl.flatten = bl :=
  chunksGo_of_flatten bs hbs bl bl.flatten.length le_rfl h

/-! ### AES integration (aes_integration.py)

Embedding of `QKDAESIntegration`.  Messages, keys, salts, nonces and blobs
are byte lists.  The base64 transport encoding applied to the blob is a
bijection inverted on entry to `decrypt_message`, so the blob is modelled as
its raw bytes.  The PyCryptodome primitives (PBKDF2, the AES block function,
the GCM/CTR keystream and the GHASH tag) live outside this repository and are
abstracted as the fields of `AESLib`; PyCryptodome's GCM and CTR encryption
is exactly keystream XOR, which is what the embedding performs, and CBC block
chaining plus PKCS#7 padding (`Crypto.Util.Padding`, fully determined by the
standard) are implemented concretely.
-/

/-- Little-endian packing of one chunk of bits into a byte:
`byte |= bits[i + j] << j` in `_bits_to_bytes`. -/
def byteOfBits (chunk : List Nat) : Nat :=
  chunk.foldr (fun b acc => b + 2 * acc) 0

/-- `QKDAESIntegration._bits_to_bytes`: pad the bit list with zeros to a
multiple of 8, then pack each group of 8 bits little-endian into a byte. -/
def bits_to_bytes (bits : List Nat) : List Nat :=
  let padded := if bits.length % 8 = 0 then bits
    else bits ++ List.replicate (8 - bits.length % 8) 0
  (chunksPos 8 padded).map byteOfBits

/-- Abstract interface to the PyCryptodome primitives used by
`QKDAESIntegration`.  `kdf` is `PBKDF2(qkd_bytes, salt, dkLen=32, 100000,
HMAC-SHA256)`; `gcmKS key nonce i` / `ctrKS key nonce i` are the `i`-th
keystream bytes of the GCM/CTR cipher instances; `gcmTag key nonce ct` is the
GCM authentication tag; `encBlock`/`decBlock` are the raw AES block function
and its inverse used by CBC. -/
structure AESLib where
  kdf : List Nat → List Nat → List Nat
  gcmKS : List Nat → List Nat → Nat → Nat
  gcmTag : List Nat → List Nat → List Nat → List Nat
  ctrKS : List Nat → List Nat → Nat → Nat
  encBlock : List Nat → List Nat → List Nat
  decBlock : List Nat → List Nat → List Nat

/-- The GCM tag is 16 bytes (`tag_size = 16` in `decrypt_message` matches the
PyCryptodome default `mac_len=16`). -/
def AESLib.TagLen16 (L : AESLib) : Prop :=
  ∀ k n ct, (L.gcmTag k n ct).length = 16

/-- The AES block function is a length-preserving permutation of 16-byte
blocks, inverted by `decBlock`. -/
def AESLib.BlockCipherOK (L : AESLib) : Prop :=
  ∀ k b, b.length = 16 →
    L.decBlock k (L.encBlock k b) = b ∧ (L.encBlock k b).length = 16

/-- XOR a byte list against a keystream starting at index `i`
(stream-cipher encryption and decryption in GCM/CTR modes). -/
def xorKS (ks : Nat → Nat) : Nat → List Nat → List Nat
  | _, [] => []
  | i, b :: rest => (b ^^^ ks i) :: xorKS ks (i + 1) rest

theorem xorKS_length (ks : Nat → Nat) :
    ∀ (i : Nat) (l : List Nat), (xorKS ks i l).length = l.length := by
  intro i l
  induction l generalizing i with
  | nil => rfl
  | cons b rest ih => simp [xorKS, ih]

theorem xorKS_xorKS (ks : Nat → Nat) :
    ∀ (i : Nat) (l : List Nat), xorKS ks i (xorKS ks i l) = l := by
  intro i l
  induction l generalizing i with
  | nil => rfl
  | cons b rest ih =>
    simp only [xorKS, ih]
    congr 1
    rw [Nat.xor_assoc, Nat.xor_self, Nat.xor_zero]

/-- Bytewise XOR of two equal-length byte lists (CBC chaining step). -/
def xorBytes (a b : List Nat) : List Nat :=
  List.zipWith (· ^^^ ·) a b

theorem xorBytes_length (a b : List Nat) :
    (xorBytes a b).length = min a.length b.length := by
  simp [xorBytes]

theorem xorBytes_xorBytes (a : List Nat) :
    ∀ b : List Nat, a.length = b.length → xorBytes a (xorBytes a b) = b := by
  induction a with
  | nil =>
    intro b hb
    cases b with
    | nil => rfl
    | cons x xs => simp at hb
  | cons x xs ih =>
    intro b hb
    cases b with
    | nil => simp at hb
    | cons y ys =>
      simp only [List.length_cons] at hb
      simp only [xorBytes, List.zipWith_cons_cons] at *
      rw [← Nat.xor_assoc, Nat.xor_self, Nat.zero_xor, ih ys (by omega)]

/-- `Crypto.Util.Padding.pad(_, 16)`, PKCS#7: append `p` copies of the byte
`p` where `p = 16 - len % 16 ∈ [1, 16]`. -/
def pkcs7pad (m : List Nat) : List Nat :=
  m ++ List.replicate (16 - m.length % 16) (16 - m.length % 16)

/-- `Crypto.Util.Padding.unpad(_, 16)`: reject empty or non-block-aligned
data, read the final byte `p`, demand `1 ≤ p ≤ min(16, len)` and that the
last `p` bytes all equal `p`; strip them.  Any violation raises
`ValueError`. -/
def pkcs7unpad (data : List Nat) : Except String (List Nat) :=
  if data.length = 0 then .error "Zero-length input cannot be unpadded"
  else if data.length % 16 ≠ 0 then .error "Input data is not padded"
  else
    let p := (data.getLast?).getD 0
    if p < 1 ∨ min 16 data.length < p then .error "Padding is incorrect."
    else if data.drop (data.length - p) = List.replicate p p then
      .ok (data.take (data.length - p))
    else .error "PKCS#7 padding is incorrect."

theorem pkcs7pad_length_mod (m : List Nat) : (pkcs7pad m).length % 16 = 0 := by
  simp only [pkcs7pad, List.length_append, List.length_replicate]
  omega

/-- CBC encryption over 16-byte blocks: `c_i = E(prev XOR p_i)` with the
previous ciphertext block (initially the IV) as `prev`. -/
def cbcEncBlocks (E : List Nat → List Nat) : List Nat → List (List Nat) → List (List Nat)
  | _, [] => []
  | prev, p :: rest =>
    let c := E (xorBytes prev p)
    c :: cbcEncBlocks E c rest

/-- CBC decryption over 16-byte blocks: `p_i = prev XOR D(c_i)`. -/
def cbcDecBlocks (D : List Nat → List Nat) : List Nat → List (List Nat) → List (List Nat)
  | _, [] => []
  | prev, c :: rest => xorBytes prev (D c) :: cbcDecBlocks D c rest

theorem cbcDecBlocks_cbcEncBlocks (E D : List Nat → List Nat)
    (h : ∀ b, b.length = 16 → D (E b) = b ∧ (E b).length = 16) :
    ∀ (ps : List (List Nat)) (prev : List Nat), prev.length = 16 →
      (∀ p ∈ ps, p.length = 16) →
      cbcDecBlocks D prev (cbcEncBlocks E prev ps) = ps := by
  intro ps
  induction ps with
  | nil => intro prev _ _; rfl
  | cons p rest ih =>
    intro prev hprev hps
    have hp : p.length = 16 := hps p (by simp)
    have hxlen : (xorBytes prev p).length = 16 := by
      rw [xorBytes_length, hprev, hp]; rfl
    obtain ⟨hD, hE⟩ := h (xorBytes prev p) hxlen
    simp only [cbcEncBlocks, cbcDecBlocks, hD]
    rw [xorBytes_xorBytes prev p (by omega)]
    rw [ih _ hE (fun q hq => hps q (by simp [hq]))]

theorem cbcEncBlocks_mem_length (E : List Nat → List Nat)
    (hE : ∀ b, b.length = 16 → (E b).length = 16) :
    ∀ (ps : List (List Nat)) (prev : List Nat), prev.length = 16 →
      (∀ p ∈ ps, p.length = 16) →
      ∀ c ∈ cbcEncBlocks E prev ps, c.length = 16 := by
  intro ps
  induction ps with
  | nil => intro prev _ _ c hc; simp [cbcEncBlocks] at hc
  | cons p rest ih =>
    intro prev hprev hps c hc
    have hp : p.length = 16 := hps p (by simp)
    have hxlen : (xorBytes prev p).length = 16 := by
      rw [xorBytes_length, hprev, hp]; rfl
    have hElen := hE _ hxlen
    simp only [cbcEncBlocks, List.mem_cons] at hc
    rcases hc with hc | hc
    · rw [hc]; exact hElen
    · exact ih _ hElen (fun q hq => hps q (by simp [hq])) c hc

/-- Byte-level CBC encryption: chunk into 16-byte blocks and chain
(`AES.new(key, AES.MODE_CBC, iv).encrypt(padded)`). -/
def cbcEncryptBytes (E : List Nat → List Nat) (iv m : List Nat) : List Nat :=
  (cbcEncBlocks E iv (chunksPos 16 m)).flatten

/-- Byte-level CBC decryption. -/
def cbcDecryptBytes (D : List Nat → List Nat) (iv c : List Nat) : List Nat :=
  (cbcDecBlocks D iv (chunksPos 16 c)).flatten

theorem cbcDecryptBytes_cbcEncryptBytes (E D : List Nat → List Nat)
    (h : ∀ b, b.length = 16 → D (E b) = b ∧ (E b).length = 16)
    (iv m : List Nat) (hiv : iv.length = 16) (hm : m.length % 16 = 0) :
    cbcDecryptBytes D iv (cbcEncryptBytes E iv m) = m := by
  have hchunks := chunksPos_mem_length 16 (by omega) m hm
  have hblocks := cbcEncBlocks_mem_length E (fun b hb => (h b hb).2)
    (chunksPos 16 m) iv hiv hchunks
  unfold cbcDecryptBytes cbcEncryptBytes
  rw [chunksPos_of_flatten 16 (by omega) _ hblocks]
  rw [cbcDecBlocks_cbcEncBlocks E D h _ iv hiv hchunks]
  exact chunksPos_join 16 (by omega) m

theorem pkcs7unpad_pkcs7pad (m : List Nat) : pkcs7unpad (pkcs7pad m) = .ok m := by
  have hp1 : 1 ≤ 16 - m.length % 16 := by omega
  have hlast : (pkcs7pad m).getLast? = some (16 - m.length % 16) := by
    unfold pkcs7pad
    rw [List.getLast?_append_of_ne_nil]
    · rw [List.getLast?_replicate]
      rw [if_neg (by omega)]
    · intro h
      have := congrArg List.length h
      simp only [List.length_replicate, List.length_nil] at this
      omega
  have hlen : (pkcs7pad m).length = m.length + (16 - m.length % 16) := by
    simp [pkcs7pad]
  have hsub : m.length + (16 - m.length % 16) - (16 - m.length % 16) = m.length := by
    omega
  unfold pkcs7unpad
  rw [if_neg (by rw [hlen]; omega)]
  rw [if_neg (by push_neg; exact pkcs7pad_length_mod m)]
  simp only [hlast, Option.getD_some]
  rw [if_neg (by rw [hlen]; omega)]
  rw [if_pos, hlen, hsub]
  · congr 1
    unfold pkcs7pad
    exact List.take_left m _
  · rw [hlen, hsub]
    unfold pkcs7pad
    exact List.drop_left m _

/-- The three supported modes of `QKDAESIntegration`
(`supported_modes = ['GCM', 'CBC', 'CTR']`). -/
inductive AESMode
  | GCM
  | CBC
  | CTR
deriving DecidableEq

/-- `QKDAESIntegration.derive_aes_key`: reject an empty QKD key, otherwise
run PBKDF2 over the packed key bytes and the salt.  The salt is always passed
explicitly by the callers modelled here (16 random bytes drawn by the caller
when absent). -/
def derive_aes_key (L : AESLib) (qkd_key salt : List Nat) : Except String (List Nat) :=
  if qkd_key = [] then .error "QKD key cannot be empty"
  else .ok (L.kdf (bits_to_bytes qkd_key) salt)

/-- `QKDAESIntegration.decrypt_message`: parse the 16-byte salt off the blob,
re-derive the key, then split the blob by mode exactly as the source slices
`encrypted_data` (`[16:32]` nonce/iv, GCM payload `[32:-16]` with trailing
16-byte tag, CBC/CTR payload `[32:]`).  GCM verifies the recomputed tag and
CBC unpads.  In CTR mode PyCryptodome's
`AES.new(key, AES.MODE_CTR, nonce=nonce)` demands a nonce strictly shorter
than the 16-byte block and raises `ValueError("Nonce is too long")`
otherwise, so a well-formed CTR blob (whose nonce slice is 16 bytes) never
decrypts.  Any internal failure is re-raised as
`ValueError("Decryption failed: ...")`. -/
def decrypt_message (L : AESLib) (mode : AESMode) (blob qkd_key : List Nat) :
    Except String (List Nat) :=
  match derive_aes_key L qkd_key (blob.take 16) with
  | .error e => .error ("Decryption failed: " ++ e)
  | .ok key =>
    match mode with
    | .GCM =>
      let nonce := (blob.drop 16).take 16
      let data := (blob.take (blob.length - 16)).drop 32
      let tag := blob.drop (blob.length - 16)
      if L.gcmTag key nonce data = tag then .ok (xorKS (L.gcmKS key nonce) 0 data)
      else .error "Decryption failed: MAC check failed"
    | .CBC =>
      let iv := (blob.drop 16).take 16
      let data := blob.drop 32
      match pkcs7unpad (cbcDecryptBytes (L.decBlock key) iv data) with
      | .ok m => .ok m
      | .error e => .error ("Decryption failed: " ++ e)
    | .CTR =>
      let nonce := (blob.drop 16).take 16
      let data := blob.drop 32
      if 16 ≤ nonce.length then .error "Decryption failed: Nonce is too long"
      else .ok (xorKS (L.ctrKS key nonce) 0 data)

/-- The encryption half of `QKDAESIntegration.encrypt_message`: derive the
key and assemble the mode-specific blob
(`salt || nonce/iv || ciphertext [|| tag]`).  `nonce` stands for the fresh
16 random bytes drawn per call (GCM nonce, CBC iv, CTR nonce).  In CTR mode
the 16-byte nonce drawn by `_encrypt_ctr` is rejected at cipher construction
(PyCryptodome requires a CTR nonce strictly shorter than the block size,
raising `ValueError("Nonce is too long")`), so CTR encryption never
completes in the program.  Returns the blob and the derived key. -/
def encrypt_blob (L : AESLib) (mode : AESMode) (message qkd_key salt nonce : List Nat) :
    Except String (List Nat × List Nat) :=
  (derive_aes_key L qkd_key salt).bind fun key =>
    match mode with
    | .GCM =>
      let ct := xorKS (L.gcmKS key nonce) 0 message
      .ok (salt ++ (nonce ++ (ct ++ L.gcmTag key nonce ct)), key)
    | .CBC =>
      let ct := cbcEncryptBytes (L.encBlock key) nonce (pkcs7pad message)
      .ok (salt ++ (nonce ++ ct), key)
    | .CTR =>
      if 16 ≤ nonce.length then .error "Nonce is too long"
      else
        let ct := xorKS (L.ctrKS key nonce) 0 message
        .ok (salt ++ (nonce ++ ct), key)

/-- `AESDemoResult` (messages and keys as byte lists; `security_error` is the
`"error"` entry written into `security_metrics` on failure). -/
structure AESDemoResult where
  original_message : List Nat
  encrypted_message : List Nat
  decrypted_message : List Nat
  key_used : List Nat
  key_length : Nat
  encryption_success : Bool
  decryption_success : Bool
  security_error : Option String
deriving DecidableEq

/-- `QKDAESIntegration.encrypt_message`: the whole body runs inside
`try/except`; encrypt, then internally decrypt the produced blob to fill
`decrypted_message`, and report success flags.  Any exception (empty QKD key,
internal decryption failure) yields the failure record with the error string
in `security_metrics`. -/
def encrypt_message (L : AESLib) (mode : AESMode)
    (message qkd_key salt nonce : List Nat) : AESDemoResult :=
  match encrypt_blob L mode message qkd_key salt nonce with
  | .error e => ⟨message, [], [], [], 0, false, false, some e⟩
  | .ok (blob, key) =>
    match decrypt_message L mode blob qkd_key with
    | .error e => ⟨message, [], [], [], 0, false, false, some e⟩
    | .ok dec =>
      ⟨message, blob, dec, key, key.length * 8, true, decide (dec = message), none⟩

theorem take16_append (s r : List Nat) (hs : s.length = 16) :
    (s ++ r).take 16 = s := by
  rw [← hs]
  exact List.take_left s r

theorem drop16_append (s r : List Nat) (hs : s.length = 16) :
    (s ++ r).drop 16 = r := by
  rw [← hs]
  exact List.drop_left s r

theorem parse_payload (s n r : List Nat) (hs : s.length = 16) (hn : n.length = 16) :
    (s ++ (n ++ r)).drop 32 = r := by
  rw [← List.append_assoc]
  have h32 : (s ++ n).length = 32 := by simp [hs, hn]
  rw [← h32]
  exact List.drop_left (s ++ n) r

/-- GCM round trip at the blob level. -/
theorem decrypt_gcm_roundtrip (L : AESLib) (message qkd_key salt nonce : List Nat)
    (hq : qkd_key ≠ []) (hs : salt.length = 16) (hn : nonce.length = 16)
    (htag : L.TagLen16) :
    ∀ blob key, encrypt_blob L .GCM message qkd_key salt nonce = .ok (blob, key) →
      decrypt_message L .GCM blob qkd_key = .ok message := by
  intro blob key henc
  simp only [encrypt_blob, derive_aes_key, if_neg hq, Except.bind] at henc
  set k := L.kdf (bits_to_bytes qkd_key) salt with hk
  set ct := xorKS (L.gcmKS k nonce) 0 message with hct
  set tag := L.gcmTag k nonce ct with htg
  have hpair : (salt ++ (nonce ++ (ct ++ tag)), k) = (blob, key) := Except.ok.inj henc
  have hblob : blob = salt ++ (nonce ++ (ct ++ tag)) := (congrArg Prod.fst hpair).symm
  have hctlen : ct.length = message.length := xorKS_length _ _ _
  have htlen : tag.length = 16 := htag k nonce ct
  have hsalt : blob.take 16 = salt := by rw [hblob]; exact take16_append _ _ hs
  have hassoc : blob = (salt ++ nonce ++ ct) ++ tag := by
    rw [hblob]; simp [List.append_assoc]
  have hfront : (salt ++ nonce ++ ct).length = 32 + ct.length := by
    simp [hs, hn]; omega
  have hlen16 : blob.length - 16 = (salt ++ nonce ++ ct).length := by
    rw [hassoc]
    simp only [List.length_append, hfront, htlen]
    omega
  have htake : blob.take (blob.length - 16) = salt ++ nonce ++ ct := by
    rw [hlen16, hassoc, List.take_left]
  have hdata : (blob.take (blob.length - 16)).drop 32 = ct := by
    rw [htake, List.append_assoc]
    exact parse_payload salt nonce ct hs hn
  have htag2 : blob.drop (blob.length - 16) = tag := by
    rw [hlen16, hassoc, List.drop_left]
  rw [decrypt_message]
  simp only [derive_aes_key, if_neg hq, hsalt]
  have hnonce : (blob.drop 16).take 16 = nonce := by
    rw [hblob, drop16_append salt _ hs]
    exact take16_append nonce _ hn
  rw [hnonce, hdata, htag2]
  rw [if_pos rfl]
  rw [hct, xorKS_xorKS]

/-- CBC round trip at the blob level. -/
theorem decrypt_cbc_roundtrip (L : AESLib) (message qkd_key salt nonce : List Nat)
    (hq : qkd_key ≠ []) (hs : salt.length = 16) (hn : nonce.length = 16)
    (hblk : L.BlockCipherOK) :
    ∀ blob key, encrypt_blob L .CBC message qkd_key salt nonce = .ok (blob, key) →
      decrypt_message L .CBC blob qkd_key = .ok message := by
  intro blob key henc
  simp only [encrypt_blob, derive_aes_key, if_neg hq, Except.bind] at henc
  set k := L.kdf (bits_to_bytes qkd_key) salt with hk
  set ct := cbcEncryptBytes (L.encBlock k) nonce (pkcs7pad message) with hct
  have hpair : (salt ++ (nonce ++ ct), k) = (blob, key) := Except.ok.inj henc
  have hblob : blob = salt ++ (nonce ++ ct) := (congrArg Prod.fst hpair).symm
  have hsalt : blob.take 16 = salt := by rw [hblob]; exact take16_append _ _ hs
  have hnonce : (blob.drop 16).take 16 = nonce := by
    rw [hblob, drop16_append salt _ hs]
    exact take16_append nonce _ hn
  have hdata : blob.drop 32 = ct := by
    rw [hblob]
    exact parse_payload salt nonce ct hs hn
  rw [decrypt_message]
  simp only [derive_aes_key, if_neg hq, hsalt]
  rw [hnonce, hdata, hct]
  rw [cbcDecryptBytes_cbcEncryptBytes (L.encBlock k) (L.decBlock k) (hblk k)
    nonce (pkcs7pad message) hn (pkcs7pad_length_mod message)]
  rw [pkcs7unpad_pkcs7pad]

/-- In CTR mode the source's 16-byte nonce is rejected by PyCryptodome at
cipher construction, so `encrypt_message` always takes the exception path
and returns the failure record with `Nonce is too long`. -/
theorem encrypt_ctr_fails (L : AESLib) (message qkd_key salt nonce : List Nat)
    (hq : qkd_key ≠ []) (hn : 16 ≤ nonce.length) :
    encrypt_message L .CTR message qkd_key salt nonce
      = ⟨message, [], [], [], 0, false, false, some "Nonce is too long"⟩ := by
  have hblob : encrypt_blob L .CTR message qkd_key salt nonce
      = .error "Nonce is too long" := by
    simp only [encrypt_blob, derive_aes_key, if_neg hq, Except.bind]
    rw [if_pos hn]
  unfold encrypt_message
  rw [hblob]

/-- For a non-empty QKD key the encryption half of the GCM and CBC modes
always succeeds, and the produced record carries the assembled blob. -/
theorem encrypt_blob_ok (L : AESLib) (mode : AESMode)
    (message qkd_key salt nonce : List Nat) (hq : qkd_key ≠ [])
    (hmode : mode ≠ AESMode.CTR) :
    ∃ blob key, encrypt_blob L mode message qkd_key salt nonce = .ok (blob, key) := by
  cases mode with
  | GCM =>
    exact ⟨_, _, by simp only [encrypt_blob, derive_aes_key, if_neg hq, Except.bind]; rfl⟩
  | CBC =>
    exact ⟨_, _, by simp only [encrypt_blob, derive_aes_key, if_neg hq, Except.bind]; rfl⟩
  | CTR => exact absurd rfl hmode

/-- Evaluation of `decrypt_message` in GCM mode on a structurally well-formed
blob: the slices recover salt, nonce, payload and tag, and the result hinges
on the tag comparison alone. -/
theorem decrypt_gcm_eval (L : AESLib) (qkd_key s n d t : List Nat) (hq : qkd_key ≠ [])
    (hs : s.length = 16) (hn : n.length = 16) (ht : t.length = 16) :
    decrypt_message L .GCM (s ++ (n ++ (d ++ t))) qkd_key =
      if L.gcmTag (L.kdf (bits_to_bytes qkd_key) s) n d = t
      then .ok (xorKS (L.gcmKS (L.kdf (bits_to_bytes qkd_key) s) n) 0 d)
      else .error "Decryption failed: MAC check failed" := by
  set blob := s ++ (n ++ (d ++ t)) with hblob
  have hsalt : blob.take 16 = s := take16_append _ _ hs
  have hnonce : (blob.drop 16).take 16 = n := by
    rw [hblob, drop16_append s _ hs]
    exact take16_append n _ hn
  have hassoc : blob = (s ++ n ++ d) ++ t := by
    rw [hblob]; simp [List.append_assoc]
  have hlen16 : blob.length - 16 = (s ++ n ++ d).length := by
    rw [hassoc]
    simp only [List.length_append, ht]
    omega
  have htake : blob.take (blob.length - 16) = s ++ n ++ d := by
    rw [hlen16, hassoc, List.take_left]
  have hdata : (blob.take (blob.length - 16)).drop 32 = d := by
    rw [htake, List.append_assoc]
    exact parse_payload s n d hs hn
  have htag2 : blob.drop (blob.length - 16) = t := by
    rw [hlen16, hassoc, List.drop_left]
  rw [decrypt_message]
  simp only [derive_aes_key, if_neg hq, hsalt]
  rw [hnonce, hdata, htag2]

/-- Flip bit `i` of a byte list: XOR byte `i / 8` with `1 <<< (i % 8)`. -/
def flipBit (l : List Nat) (i : Nat) : List Nat :=
  l.set (i / 8) ((l.getD (i / 8) 0) ^^^ (1 <<< (i % 8)))

theorem flipBit_length (l : List Nat) (i : Nat) : (flipBit l i).length = l.length := by
  simp [flipBit]

theorem xor_shift_ne (x k : Nat) : x ^^^ (1 <<< k) ≠ x := by
  intro h
  have h2 : x ^^^ (x ^^^ (1 <<< k)) = x ^^^ x := congrArg (x ^^^ ·) h
  rw [← Nat.xor_assoc, Nat.xor_self, Nat.zero_xor] at h2
  have h3 : 0 < 1 <<< k := by
    rw [Nat.shiftLeft_eq, Nat.one_mul]
    exact Nat.pos_pow_of_pos k (by omega)
  omega

theorem flipBit_ne (l : List Nat) (i : Nat) (hi : i < l.length * 8) :
    flipBit l i ≠ l := by
  intro h
  have hj : i / 8 < l.length := by omega
  have hj' : i / 8 < (l.set (i / 8) ((l.getD (i / 8) 0) ^^^ (1 <<< (i % 8)))).length := by
    rw [List.length_set]; exact hj
  have h1 : (l.set (i / 8) ((l.getD (i / 8) 0) ^^^ (1 <<< (i % 8)))).getD (i / 8) 0
      = (l.getD (i / 8) 0) ^^^ (1 <<< (i % 8)) := by
    rw [List.getD_eq_getElem _ _ hj']
    exact List.getElem_set_self hj'
  have h2 : flipBit l i = l := h
  unfold flipBit at h2
  rw [h2] at h1
  exact xor_shift_ne (l.getD (i / 8) 0) (i % 8) h1.symm

/-- The key derived for a blob whose salt slice is `salt` (shared between the
GCM tamper statements). -/
def keyOf (L : AESLib) (qkd_key salt : List Nat) : List Nat :=
  L.kdf (bits_to_bytes qkd_key) salt

/-- The GCM ciphertext of `message` under the derived key and `nonce`. -/
def gcmCtOf (L : AESLib) (qkd_key salt nonce message : List Nat) : List Nat :=
  xorKS (L.gcmKS (keyOf L qkd_key salt) nonce) 0 message

/-- The GCM tag attached by `encrypt_message`. -/
def gcmTagOf (L : AESLib) (qkd_key salt nonce message : List Nat) : List Nat :=
  L.gcmTag (keyOf L qkd_key salt) nonce (gcmCtOf L qkd_key salt nonce message)

/-- Concrete instantiation of the abstract PyCryptodome interface used by the
witnesses: zero keystreams, a tag that copies the first ciphertext bytes, and
the identity block permutation. -/
def trivLib : AESLib where
  kdf := fun _ _ => List.replicate 32 0
  gcmKS := fun _ _ _ => 0
  gcmTag := fun _ _ ct => (ct ++ List.replicate 16 0).take 16
  ctrKS := fun _ _ _ => 0
  encBlock := fun _ b => b
  decBlock := fun _ b => b

theorem trivLib_tagLen : trivLib.TagLen16 := by
  intro k n ct
  simp only [trivLib, List.length_take, List.length_append, List.length_replicate]
  omega

theorem trivLib_blockOK : trivLib.BlockCipherOK :=
  fun _ _ hb => ⟨rfl, hb⟩

/-- C1 counterexample: in CTR mode the program cannot round-trip at all.
`_encrypt_ctr` draws a 16-byte nonce and
`AES.new(key, AES.MODE_CTR, nonce=...)` raises
`ValueError("Nonce is too long")`, so `encrypt_message` returns the failure
record with an empty blob, and decrypting that blob does not yield the
message. -/
theorem aes_roundtrip_counterexample :
    (encrypt_message trivLib .CTR [104, 105] (List.replicate 8 1)
      (List.replicate 16 0) (List.replicate 16 0)).encryption_success = false ∧
    decrypt_message trivLib .CTR
      (encrypt_message trivLib .CTR [104, 105] (List.replicate 8 1)
        (List.replicate 16 0) (List.replicate 16 0)).encrypted_message
      (List.replicate 8 1) ≠ .ok [104, 105] := by
  have hfail := encrypt_ctr_fails trivLib [104, 105] (List.replicate 8 1)
    (List.replicate 16 0) (List.replicate 16 0) (by decide) (by decide)
  rw [hfail]
  refine ⟨rfl, ?_⟩
  have hdec : decrypt_message trivLib .CTR [] (List.replicate 8 1) = .ok [] := rfl
  rw [show (⟨[104, 105], [], [], [], 0, false, false,
    some "Nonce is too long"⟩ : AESDemoResult).encrypted_message = [] from rfl, hdec]
  simp

/-- C1 (amended): for modes GCM and CBC, every message, and every QKD key of
length ≥ 8 bits, `encrypt_message` succeeds and `decrypt_message` of the
produced blob under the same QKD key recovers the message; in CTR mode
`encrypt_message` always fails (`encryption_success = false`) because the
16-byte CTR nonce is rejected by PyCryptodome with
`ValueError("Nonce is too long")`.  The salt and the per-call nonce/IV are
the 16 random bytes drawn by the source; the abstract PyCryptodome facts
assumed are that the GCM tag is 16 bytes and that the AES block function is
a length-preserving permutation. -/
theorem aes_roundtrip_amended (L : AESLib) (mode : AESMode)
    (message qkd_key salt nonce : List Nat)
    (hq : 8 ≤ qkd_key.length) (hs : salt.length = 16) (hn : nonce.length = 16)
    (htag : L.TagLen16) (hblk : L.BlockCipherOK) :
    (mode ≠ AESMode.CTR →
      (encrypt_message L mode message qkd_key salt nonce).encryption_success = true ∧
      decrypt_message L mode
        (encrypt_message L mode message qkd_key salt nonce).encrypted_message qkd_key
        = .ok message) ∧
    (mode = AESMode.CTR →
      (encrypt_message L mode message qkd_key salt nonce).encryption_success = false ∧
      (encrypt_message L mode message qkd_key salt nonce).security_error
        = some "Nonce is too long") := by
  have hne : qkd_key ≠ [] := by
    intro h
    rw [h] at hq
    simp at hq
  constructor
  · intro hmode
    obtain ⟨blob, key, hok⟩ := encrypt_blob_ok L mode message qkd_key salt nonce hne hmode
    have hdec : decrypt_message L mode blob qkd_key = .ok message := by
      cases mode with
      | GCM => exact decrypt_gcm_roundtrip L message qkd_key salt nonce hne hs hn htag blob key hok
      | CBC => exact decrypt_cbc_roundtrip L message qkd_key salt nonce hne hs hn hblk blob key hok
      | CTR => exact absurd rfl hmode
    have henc : encrypt_message L mode message qkd_key salt nonce =
        ⟨message, blob, message, key, key.length * 8, true, decide (message = message), none⟩ := by
      simp only [encrypt_message, hok, hdec]
    rw [henc]
    exact ⟨rfl, hdec⟩
  · intro hmode
    subst hmode
    rw [encrypt_ctr_fails L message qkd_key salt nonce hne (by rw [hn])]
    exact ⟨rfl, rfl⟩

/-- Witness for the amended C1: the GCM round trip at message "hi" with an
8-bit QKD key, and the CTR failure at the same inputs. -/
theorem aes_roundtrip_amended_witness :
    ((AESMode.GCM ≠ AESMode.CTR →
      (encrypt_message trivLib .GCM [104, 105] (List.replicate 8 1)
        (List.replicate 16 0) (List.replicate 16 0)).encryption_success = true ∧
      decrypt_message trivLib .GCM
        (encrypt_message trivLib .GCM [104, 105] (List.replicate 8 1)
          (List.replicate 16 0) (List.replicate 16 0)).encrypted_message
        (List.replicate 8 1) = .ok [104, 105]) ∧
     (AESMode.GCM = AESMode.CTR →
      (encrypt_message trivLib .GCM [104, 105] (List.replicate 8 1)
        (List.replicate 16 0) (List.replicate 16 0)).encryption_success = false ∧
      (encrypt_message trivLib .GCM [104, 105] (List.replicate 8 1)
        (List.replicate 16 0) (List.replicate 16 0)).security_error
        = some "Nonce is too long")) ∧
    ((AESMode.CTR ≠ AESMode.CTR →
      (encrypt_message trivLib .CTR [104, 105] (List.replicate 8 1)
        (List.replicate 16 0) (List.replicate 16 0)).encryption_success = true ∧
      decrypt_message trivLib .CTR
        (encrypt_message trivLib .CTR [104, 105] (List.replicate 8 1)
          (List.replicate 16 0) (List.replicate 16 0)).encrypted_message
        (List.replicate 8 1) = .ok [104, 105]) ∧
     (AESMode.CTR = AESMode.CTR →
      (encrypt_message trivLib .CTR [104, 105] (List.replicate 8 1)
        (List.replicate 16 0) (List.replicate 16 0)).encryption_success = false ∧
      (encrypt_message trivLib .CTR [104, 105] (List.replicate 8 1)
        (List.replicate 16 0) (List.replicate 16 0)).security_error
        = some "Nonce is too long")) :=
  ⟨aes_roundtrip_amended trivLib .GCM [104, 105] (List.replicate 8 1)
      (List.replicate 16 0) (List.replicate 16 0)
      (by simp) (by simp) (by simp) trivLib_tagLen trivLib_blockOK,
   aes_roundtrip_amended trivLib .CTR [104, 105] (List.replicate 8 1)
      (List.replicate 16 0) (List.replicate 16 0)
      (by simp) (by simp) (by simp) trivLib_tagLen trivLib_blockOK⟩

/-- C10: `encrypt_message` is total; with an empty QKD key the key derivation
raises `ValueError("QKD key cannot be empty")`, the surrounding
`try/except` catches it and the call returns the failure record: both success
flags false, empty encrypted message, and the error recorded in the security
metrics. -/
theorem encrypt_message_empty_key (L : AESLib) (mode : AESMode)
    (message salt nonce : List Nat) :
    encrypt_message L mode message [] salt nonce =
      ⟨message, [], [], [], 0, false, false, some "QKD key cannot be empty"⟩ := by
  cases mode <;> rfl

/-- C2: tamper detection for GCM blobs.  `encrypt_message` with a non-empty
QKD key emits `salt || nonce || ct || tag`; flipping any single bit of the
tag region makes `decrypt_message` fail unconditionally, and flipping any
single bit of the ciphertext region makes it fail whenever the recomputed
GCM tag of the altered ciphertext differs from the stored tag (the MAC
soundness property of AES-GCM, stated as a hypothesis on the abstract tag
function). -/
theorem gcm_tamper_detected (L : AESLib) (message qkd_key salt nonce : List Nat)
    (hq : qkd_key ≠ []) (hs : salt.length = 16) (hn : nonce.length = 16)
    (htag : L.TagLen16) :
    (encrypt_message L .GCM message qkd_key salt nonce).encrypted_message
      = salt ++ (nonce ++ (gcmCtOf L qkd_key salt nonce message
          ++ gcmTagOf L qkd_key salt nonce message)) ∧
    (∀ i, i < (gcmCtOf L qkd_key salt nonce message).length * 8 →
      L.gcmTag (keyOf L qkd_key salt) nonce
          (flipBit (gcmCtOf L qkd_key salt nonce message) i)
        ≠ gcmTagOf L qkd_key salt nonce message →
      (decrypt_message L .GCM
        (salt ++ (nonce ++ (flipBit (gcmCtOf L qkd_key salt nonce message) i
          ++ gcmTagOf L qkd_key salt nonce message))) qkd_key).isOk = false) ∧
    (∀ j, j < 16 * 8 →
      (decrypt_message L .GCM
        (salt ++ (nonce ++ (gcmCtOf L qkd_key salt nonce message
          ++ flipBit (gcmTagOf L qkd_key salt nonce message) j))) qkd_key).isOk
        = false) := by
  have htlen : (gcmTagOf L qkd_key salt nonce message).length = 16 := htag _ _ _
  refine ⟨?_, ?_, ?_⟩
  · obtain ⟨blob, key, hok⟩ := encrypt_blob_ok L .GCM message qkd_key salt nonce hq
      (by decide)
    have hdec : decrypt_message L .GCM blob qkd_key = .ok message :=
      decrypt_gcm_roundtrip L message qkd_key salt nonce hq hs hn htag blob key hok
    have hblob : blob = salt ++ (nonce ++ (gcmCtOf L qkd_key salt nonce message
        ++ gcmTagOf L qkd_key salt nonce message)) := by
      simp only [encrypt_blob, derive_aes_key, if_neg hq, Except.bind] at hok
      have hpair := Except.ok.inj hok
      exact (congrArg Prod.fst hpair).symm
    simp only [encrypt_message, hok, hdec]
    exact hblob
  · intro i hi hne
    rw [decrypt_gcm_eval L qkd_key salt nonce
      (flipBit (gcmCtOf L qkd_key salt nonce message) i)
      (gcmTagOf L qkd_key salt nonce message) hq hs hn htlen]
    simp only [keyOf] at hne
    rw [if_neg hne]
    rfl
  · intro j hj
    have hflip : flipBit (gcmTagOf L qkd_key salt nonce message) j
        ≠ gcmTagOf L qkd_key salt nonce message :=
      flipBit_ne _ j (by rw [htlen]; omega)
    have hlen' : (flipBit (gcmTagOf L qkd_key salt nonce message) j).length = 16 := by
      rw [flipBit_length, htlen]
    rw [decrypt_gcm_eval L qkd_key salt nonce (gcmCtOf L qkd_key salt nonce message)
      (flipBit (gcmTagOf L qkd_key salt nonce message) j) hq hs hn hlen']
    rw [if_neg ?hcond]
    · rfl
    case hcond =>
      intro h
      apply hflip
      have h2 : gcmTagOf L qkd_key salt nonce message
          = flipBit (gcmTagOf L qkd_key salt nonce message) j := by
        rw [gcmTagOf, keyOf]
        exact h
      exact h2.symm

/-- Witness for C2: flipping bit 0 of the ciphertext and bit 0 of the tag of
a concrete GCM blob both make decryption fail. -/
theorem gcm_tamper_detected_witness :
    (decrypt_message trivLib .GCM
      (List.replicate 16 0 ++ (List.replicate 16 0 ++
        (flipBit (gcmCtOf trivLib [1] (List.replicate 16 0) (List.replicate 16 0) [0]) 0
          ++ gcmTagOf trivLib [1] (List.replicate 16 0) (List.replicate 16 0) [0])))
      [1]).isOk = false ∧
    (decrypt_message trivLib .GCM
      (List.replicate 16 0 ++ (List.replicate 16 0 ++
        (gcmCtOf trivLib [1] (List.replicate 16 0) (List.replicate 16 0) [0]
          ++ flipBit (gcmTagOf trivLib [1] (List.replicate 16 0) (List.replicate 16 0) [0]) 0)))
      [1]).isOk = false := by
  have h := gcm_tamper_detected trivLib [0] [1] (List.replicate 16 0) (List.replicate 16 0)
    (by decide) (by simp) (by simp) trivLib_tagLen
  exact ⟨h.2.1 0 (by decide) (by decide), h.2.2 0 (by decide)⟩

/-! ### Privacy amplification (privacy_amplification.py)

`AdvancedPrivacyAmplification.amplify_privacy` hashes the input key and then
truncates or zero-pads the hash output to the secure output length, so for a
non-empty input the final key length is exactly
`_calculate_secure_output_length(input_length, entropy)`.  The entropy fed
into that computation is `_estimate_entropy`, the per-bit Shannon entropy of
the bit frequencies — a value in `[0, 1]` — while
`security_bits = log2(1/0.1) > 3`, so `int(entropy - security_bits)` is
always negative, the jittered value stays nonpositive, and the output length
is always the `min_length` floor (at least 8).
-/

/-- Python `int()` applied to a float truncates toward zero. -/
noncomputable def pyInt (x : ℝ) : ℤ :=
  if x < 0 then ⌈x⌉ else ⌊x⌋

theorem pyInt_nonpos (x : ℝ) (hx : x ≤ 0) : pyInt x ≤ 0 := by
  unfold pyInt
  split
  · exact Int.ceil_le.mpr (by exact_mod_cast hx)
  · exact Int.floor_nonpos hx

/-- `security_bits = np.log2(1 / epsilon)` with the default
`security_parameter = 0.1`. -/
noncomputable def security_bits : ℝ :=
  Real.logb 2 (1 / (1 / 10 : ℝ))

theorem security_bits_ge_three : (3 : ℝ) ≤ security_bits := by
  unfold security_bits
  have h10 : (1 / (1 / 10 : ℝ)) = 10 := by norm_num
  rw [h10]
  have h8 : Real.logb 2 8 = 3 := by
    rw [show (8 : ℝ) = 2 ^ (3 : ℕ) by norm_num, Real.logb_pow,
      Real.logb_self_eq_one (by norm_num)]
    norm_num
  rw [← h8]
  exact Real.logb_le_logb_of_le (by norm_num) (by norm_num) (by norm_num)

/-- The `min_length` floor of `_calculate_secure_output_length`. -/
def min_length_of (input_length : Nat) : Nat :=
  if input_length < 100 then max 8 (input_length / 10)
  else if input_length < 500 then max 32 (input_length / 15)
  else max 32 (input_length / 25)

theorem min_length_of_ge_eight (n : Nat) : 8 ≤ min_length_of n := by
  unfold min_length_of
  split
  · omega
  · split <;> omega

theorem min_length_of_le (n : Nat) (hn : 8 ≤ n) : min_length_of n ≤ n := by
  unfold min_length_of
  have h10 := Nat.div_le_self n 10
  have h15 := Nat.div_le_self n 15
  have h25 := Nat.div_le_self n 25
  split
  · omega
  · split <;> omega

/-- `AdvancedPrivacyAmplification._calculate_secure_output_length` with the
default `output_length = 256`: `int(entropy - security_bits)`, jittered by
the random factor `rf ~ Uniform(0.9, 1.1)`, clamped into
`[min_length, output_length]`. -/
noncomputable def calculate_secure_output_length
    (input_length : Nat) (entropy rf : ℝ) : ℤ :=
  max ((min_length_of input_length : ℤ))
    (min (pyInt (((pyInt (entropy - security_bits) : ℤ) : ℝ) * rf)) 256)

/-- Because the estimated entropy is per-bit (≤ 1) and `security_bits > 3`,
the clamp always lands on the `min_length` floor. -/
theorem calculate_secure_output_length_eq (input_length : Nat) (entropy rf : ℝ)
    (hH : entropy ≤ 1) (hrf : 0 ≤ rf) :
    calculate_secure_output_length input_length entropy rf
      = ((min_length_of input_length : Nat) : ℤ) := by
  have hsb := security_bits_ge_three
  have h1 : entropy - security_bits ≤ 0 := by linarith
  have hsl1 : pyInt (entropy - security_bits) ≤ 0 := pyInt_nonpos _ h1
  have h2 : ((pyInt (entropy - security_bits) : ℤ) : ℝ) * rf ≤ 0 :=
    mul_nonpos_of_nonpos_of_nonneg (by exact_mod_cast hsl1) hrf
  have hsl2 : pyInt (((pyInt (entropy - security_bits) : ℤ) : ℝ) * rf) ≤ 0 :=
    pyInt_nonpos _ h2
  have hml : (8 : ℤ) ≤ ((min_length_of input_length : Nat) : ℤ) := by
    exact_mod_cast min_length_of_ge_eight input_length
  unfold calculate_secure_output_length
  omega

/-- One summand of `_estimate_entropy`:
`entropy -= probability * np.log2(probability)` for a count `c > 0` out of
`n` bits. -/
noncomputable def entropy_term (c n : Nat) : ℝ :=
  if 0 < c then ((c : ℝ) / n) * Real.logb 2 (((c : ℝ) / n)⁻¹) else 0

/-- `AdvancedPrivacyAmplification._estimate_entropy`: the per-bit Shannon
entropy of the 0/1 frequencies of the key. -/
noncomputable def estimate_entropy (key : List Nat) : ℝ :=
  if key.length = 0 then 0
  else entropy_term (key.countP (fun b => decide (b = 0))) key.length
    + entropy_term (key.countP (fun b => decide (b = 1))) key.length

theorem countP_bits_sum (key : List Nat) (hbits : ∀ b ∈ key, b = 0 ∨ b = 1) :
    key.countP (fun b => decide (b = 0)) + key.countP (fun b => decide (b = 1))
      = key.length := by
  induction key with
  | nil => rfl
  | cons a t ih =>
    have ha := hbits a (List.mem_cons_self a t)
    have ih2 := ih (fun b hb => hbits b (List.mem_cons_of_mem a hb))
    rcases ha with ha | ha <;> subst ha <;>
      simp only [List.countP_cons, List.length_cons] <;>
      simp <;> omega

theorem entropy_term_self (n : Nat) (hn : 0 < n) : entropy_term n n = 0 := by
  unfold entropy_term
  rw [if_pos hn]
  have : ((n : ℝ) / n) = 1 := div_self (by exact_mod_cast hn.ne')
  rw [this]
  simp [Real.logb_one]

theorem entropy_term_eq (c n : Nat) (hc : 0 < c) :
    entropy_term c n = ((c : ℝ) / n) * (Real.log (((c : ℝ) / n)⁻¹) / Real.log 2) := by
  unfold entropy_term
  rw [if_pos hc, Real.logb]

/-- The entropy estimate of a 0/1 key never exceeds 1 bit per bit: it is the
binary Shannon entropy of the empirical bit frequency. -/
theorem estimate_entropy_le_one (key : List Nat)
    (hbits : ∀ b ∈ key, b = 0 ∨ b = 1) : estimate_entropy key ≤ 1 := by
  unfold estimate_entropy
  split
  · norm_num
  · rename_i hn
    have hsum := countP_bits_sum key hbits
    set n := key.length with hnn
    set c0 := key.countP (fun b => decide (b = 0)) with hc0
    set c1 := key.countP (fun b => decide (b = 1)) with hc1
    have hnpos : 0 < n := Nat.pos_of_ne_zero hn
    have hnne : (n : ℝ) ≠ 0 := by exact_mod_cast hnpos.ne'
    rcases Nat.eq_zero_or_pos c0 with h0 | h0
    · have h1n : c1 = n := by omega
      rw [h0, h1n, entropy_term_self n hnpos]
      unfold entropy_term
      norm_num
    rcases Nat.eq_zero_or_pos c1 with h1 | h1
    · have h0n : c0 = n := by omega
      rw [h1, h0n, entropy_term_self n hnpos]
      unfold entropy_term
      norm_num
    have hq : ((c1 : ℝ) / n) = 1 - ((c0 : ℝ) / n) := by
      field_simp
      have : (c0 : ℝ) + c1 = n := by exact_mod_cast hsum
      linarith
    rw [entropy_term_eq c0 n h0, entropy_term_eq c1 n h1, hq]
    have hbe : Real.binEntropy ((c0 : ℝ) / n) ≤ Real.log 2 :=
      Real.binEntropy_le_log_two
    have hlog2 : 0 < Real.log 2 := Real.log_pos (by norm_num)
    rw [Real.binEntropy] at hbe
    have heq : (c0 : ℝ) / n * (Real.log (((c0 : ℝ) / n)⁻¹) / Real.log 2)
        + (1 - (c0 : ℝ) / n) * (Real.log ((1 - (c0 : ℝ) / n)⁻¹) / Real.log 2)
        = ((c0 : ℝ) / n * Real.log (((c0 : ℝ) / n)⁻¹)
          + (1 - (c0 : ℝ) / n) * Real.log ((1 - (c0 : ℝ) / n)⁻¹)) / Real.log 2 := by
      field_simp
    rw [heq, div_le_one hlog2]
    exact hbe

/-- The truncate-or-zero-pad step of `amplify_privacy` that forces the hashed
key to the secure output length. -/
def adjust_key (k : List Nat) (sl : Nat) : List Nat :=
  if sl < k.length then k.take sl
  else if k.length < sl then k ++ List.replicate (sl - k.length) 0
  else k

theorem adjust_key_length (k : List Nat) (sl : Nat) :
    (adjust_key k sl).length = sl := by
  unfold adjust_key
  split
  · rename_i h
    simp only [List.length_take]
    omega
  · split
    · rename_i h
      simp only [List.length_append, List.length_replicate]
      omega
    · omega

/-- The fields of `PrivacyAmplificationResult` that the claims consult (the
remaining fields record metadata that does not feed back into the keys). -/
structure PrivacyAmplificationResult where
  final_key : List Nat
  original_length : Nat
  final_length : Nat

/-- `AdvancedPrivacyAmplification.amplify_privacy`: an empty input yields the
empty result; otherwise the input is hashed (`hash` abstracts the
Toeplitz/universal/hybrid stage, whose output is then truncated or zero-padded
to the secure output length, so the final length does not depend on it),
with `entropy = _estimate_entropy(input_key)` and the jitter draw `rf`. -/
noncomputable def amplify_privacy (hash : List Nat → List Nat) (rf : ℝ)
    (input_key : List Nat) : PrivacyAmplificationResult :=
  if input_key = [] then ⟨[], 0, 0⟩
  else
    let sl := (calculate_secure_output_length input_key.length
      (estimate_entropy input_key) rf).toNat
    ⟨adjust_key (hash input_key) sl, input_key.length,
      (adjust_key (hash input_key) sl).length⟩

/-- For a non-empty 0/1 input and a nonnegative jitter draw, the final key
length is exactly the `min_length` floor. -/
theorem amplify_privacy_final_length (hash : List Nat → List Nat) (rf : ℝ)
    (input_key : List Nat) (hne : input_key ≠ [])
    (hbits : ∀ b ∈ input_key, b = 0 ∨ b = 1) (hrf : 0 ≤ rf) :
    (amplify_privacy hash rf input_key).final_length
      = min_length_of input_key.length := by
  unfold amplify_privacy
  rw [if_neg hne]
  simp only [adjust_key_length]
  rw [calculate_secure_output_length_eq input_key.length (estimate_entropy input_key) rf
    (estimate_entropy_le_one input_key hbits) hrf]
  exact Int.toNat_natCast _

theorem amplify_privacy_key_length (hash : List Nat → List Nat) (rf : ℝ)
    (input_key : List Nat) :
    (amplify_privacy hash rf input_key).final_key.length
      = (amplify_privacy hash rf input_key).final_length := by
  unfold amplify_privacy
  split <;> rfl

/-- The key-bearing fields of a `BB84Result` record touched by
`QKDSimulator._apply_advanced_privacy_amplification`. -/
structure BB84ResultKeys where
  sifted_key_sender : List Nat
  sifted_key_receiver : List Nat
  sifted_key_length : Nat
  final_key_sender : List Nat
  final_key_receiver : List Nat
  final_key_length : Nat

/-- `QKDSimulator._apply_advanced_privacy_amplification`: amplify both sifted
keys and overwrite the final keys, setting
`final_key_length = len(sender_amplified.final_key)`; `sifted_key_length` is
left as it stands.  Note that advanced reconciliation
(`_apply_advanced_reconciliation`, simulator.py:268) sets that field to
`key_length - len(revealed_positions)` while the corrected keys keep their
full length, so after any corrected error `sifted_key_length` is strictly
smaller than `len(sifted_key_sender)`. -/
noncomputable def apply_advanced_privacy_amplification (hash : List Nat → List Nat)
    (rf : ℝ) (r : BB84ResultKeys) : BB84ResultKeys :=
  { r with
    final_key_sender := (amplify_privacy hash rf r.sifted_key_sender).final_key
    final_key_receiver := (amplify_privacy hash rf r.sifted_key_receiver).final_key
    final_key_length := (amplify_privacy hash rf r.sifted_key_sender).final_key.length }

/-- C3 counterexample: a completed run whose reconciled sifted key holds a
single bit.  Advanced privacy amplification pads the hashed key up to the
8-bit `min_length` floor, so the record ends with `final_key_length = 8`
while `sifted_key_length = 1`, violating the claimed invariant. -/
theorem final_le_sifted_counterexample :
    ¬((apply_advanced_privacy_amplification (fun _ => List.replicate 256 0) 1
        ⟨[0], [0], 1, [], [], 0⟩).final_key_length
      ≤ (apply_advanced_privacy_amplification (fun _ => List.replicate 256 0) 1
        ⟨[0], [0], 1, [], [], 0⟩).sifted_key_length) := by
  have hb : ∀ b ∈ ([0] : List Nat), b = 0 ∨ b = 1 := by
    intro b hb
    simp at hb
    exact Or.inl hb
  have h := amplify_privacy_final_length (fun _ => List.replicate 256 0) 1 [0]
    (by decide) hb (by norm_num)
  have hk := amplify_privacy_key_length (fun _ => List.replicate 256 0) 1 [0]
  unfold apply_advanced_privacy_amplification
  simp only
  rw [hk, h]
  decide

/-- C3 (amended): after advanced privacy amplification, `final_key_length`
is exactly the `min_length` floor of the reconciled sifted key's length
(0 for an empty key, otherwise ≥ 8), and the claimed invariant
`final_key_length ≤ sifted_key_length` holds precisely when the reconciled
sifted key is empty or that floor is at most the recorded
`sifted_key_length`.  It therefore fails both for 1–7-bit keys
(floor 8 > length, see the counterexample) and whenever advanced
reconciliation corrected enough errors that
`sifted_key_length = key_length - revealed` drops below the floor (e.g.
10-bit keys with 3 corrected errors: floor 8 > 7). -/
theorem final_le_sifted_amended (hash : List Nat → List Nat) (rf : ℝ)
    (r : BB84ResultKeys)
    (hbits : ∀ b ∈ r.sifted_key_sender, b = 0 ∨ b = 1)
    (hrf : 0 ≤ rf) :
    ((apply_advanced_privacy_amplification hash rf r).final_key_length
      = if r.sifted_key_sender = [] then 0
        else min_length_of r.sifted_key_sender.length) ∧
    ((apply_advanced_privacy_amplification hash rf r).final_key_length
        ≤ (apply_advanced_privacy_amplification hash rf r).sifted_key_length
      ↔ (r.sifted_key_sender = [] ∨
          min_length_of r.sifted_key_sender.length ≤ r.sifted_key_length)) := by
  have hfin : (apply_advanced_privacy_amplification hash rf r).final_key_length
      = if r.sifted_key_sender = [] then 0
        else min_length_of r.sifted_key_sender.length := by
    unfold apply_advanced_privacy_amplification
    simp only
    rw [amplify_privacy_key_length]
    by_cases hne : r.sifted_key_sender = []
    · rw [if_pos hne, hne]
      unfold amplify_privacy
      rw [if_pos rfl]
    · rw [if_neg hne]
      exact amplify_privacy_final_length hash rf r.sifted_key_sender hne hbits hrf
  have hsift : (apply_advanced_privacy_amplification hash rf r).sifted_key_length
      = r.sifted_key_length := rfl
  refine ⟨hfin, ?_⟩
  rw [hfin, hsift]
  by_cases hne : r.sifted_key_sender = []
  · rw [if_pos hne]
    exact iff_of_true (Nat.zero_le _) (Or.inl hne)
  · rw [if_neg hne]
    constructor
    · intro h
      exact Or.inr h
    · intro h
      rcases h with h | h
      · exact absurd h hne
      · exact h

/-- A run record with an 8-bit reconciled key and `sifted_key_length = 7`
(one corrected error): the amended C3 witness input, on which the invariant
fails through the reconciliation-shortened field. -/
def sampleRunRecord : BB84ResultKeys :=
  ⟨List.replicate 8 0, List.replicate 8 0, 7, [], [], 0⟩

/-- Witness for the amended C3 at `sampleRunRecord`. -/
theorem final_le_sifted_amended_witness :
    ((apply_advanced_privacy_amplification (fun _ => List.replicate 256 0) 1
        sampleRunRecord).final_key_length
      = if sampleRunRecord.sifted_key_sender = [] then 0
        else min_length_of sampleRunRecord.sifted_key_sender.length) ∧
    ((apply_advanced_privacy_amplification (fun _ => List.replicate 256 0) 1
        sampleRunRecord).final_key_length
        ≤ (apply_advanced_privacy_amplification (fun _ => List.replicate 256 0) 1
            sampleRunRecord).sifted_key_length
      ↔ (sampleRunRecord.sifted_key_sender = [] ∨
          min_length_of sampleRunRecord.sifted_key_sender.length
            ≤ sampleRunRecord.sifted_key_length)) :=
  final_le_sifted_amended (fun _ => List.replicate 256 0) 1 sampleRunRecord
    (by
      intro b hb
      simp only [sampleRunRecord, List.mem_replicate] at hb
      exact Or.inl hb.2)
    (by norm_num)

/-! ### Simulator facade (simulator.py)

`SimulationParameters` is a dataclass whose `__post_init__` runs
`_validate_parameters`; the embedding keeps the fields that validation and
`generate_quantum_key_for_user` read (the remaining fields are configuration
never consulted by the validator).  Exact decimal floats are embedded as `ℚ`.
-/

structure SimulationParameters where
  num_qubits : Nat
  channel_length : ℚ
  channel_attenuation : ℚ
  wavelength : ℚ
  channel_depolarization : ℚ
  photon_source_efficiency : ℚ
  detector_efficiency : ℚ
deriving DecidableEq

/-- `SimulationParameters._validate_parameters`, checks in source order.
`num_qubits` is not examined. -/
def validate_parameters (p : SimulationParameters) : Except String Unit :=
  if p.channel_length < 1/10 ∨ 300 < p.channel_length then
    .error "Channel length must be between 0.1 and 300 km for fiber"
  else if p.wavelength < 800 ∨ 1600 < p.wavelength then
    .error "Wavelength must be between 800-1600 nm"
  else if p.channel_attenuation < 1/20 ∨ 1 < p.channel_attenuation then
    .error "Channel attenuation must be between 0.05-1.0 dB/km"
  else if p.detector_efficiency < 1/10 ∨ 19/20 < p.detector_efficiency then
    .error "Detector efficiency must be between 10-95%"
  else if p.photon_source_efficiency < 1/2 ∨ 19/20 < p.photon_source_efficiency then
    .error "Photon source efficiency must be between 50-95%"
  else .ok ()

/-- Construction of `SimulationParameters` (`__post_init__` raises the
validator's `ValueError`, otherwise the record is produced). -/
def mkSimulationParameters (p : SimulationParameters) : Except String SimulationParameters :=
  (validate_parameters p).map fun _ => p

/-- C5 counterexample: `SimulationParameters` with `num_qubits = 7` (below
the claimed [8, 10000] range) and default values elsewhere validates
successfully — no parameter-validation error is raised and a simulation
would be started. -/
theorem num_qubits_validation_counterexample :
    validate_parameters ⟨7, 10, 1/10, 1550, 1/100, 4/5, 4/5⟩ = .ok () ∧ 7 < 8 := by
  constructor
  · norm_num [validate_parameters]
  · omega

/-- C5 (amended): construction succeeds exactly when channel_length,
wavelength, channel_attenuation, detector_efficiency and
photon_source_efficiency are within their ranges; `num_qubits` is not
validated here (its [8, 10000] bounds live only in the API-layer
`SimulationRequest` schema), so changing it never affects the outcome. -/
theorem simulation_parameters_validation_amended (p : SimulationParameters) :
    (validate_parameters p = .ok () ↔
      (1/10 ≤ p.channel_length ∧ p.channel_length ≤ 300 ∧
       800 ≤ p.wavelength ∧ p.wavelength ≤ 1600 ∧
       1/20 ≤ p.channel_attenuation ∧ p.channel_attenuation ≤ 1 ∧
       1/10 ≤ p.detector_efficiency ∧ p.detector_efficiency ≤ 19/20 ∧
       1/2 ≤ p.photon_source_efficiency ∧ p.photon_source_efficiency ≤ 19/20)) ∧
    (∀ n : Nat, validate_parameters { p with num_qubits := n } = validate_parameters p) := by
  constructor
  · constructor
    · intro h
      unfold validate_parameters at h
      split_ifs at h with h1 h2 h3 h4 h5
      push_neg at h1 h2 h3 h4 h5
      exact ⟨h1.1, h1.2, h2.1, h2.2, h3.1, h3.2, h4.1, h4.2, h5.1, h5.2⟩
    · rintro ⟨a1, a2, a3, a4, a5, a6, a7, a8, a9, a10⟩
      unfold validate_parameters
      rw [if_neg (by push_neg; exact ⟨a1, a2⟩), if_neg (by push_neg; exact ⟨a3, a4⟩),
        if_neg (by push_neg; exact ⟨a5, a6⟩), if_neg (by push_neg; exact ⟨a7, a8⟩),
        if_neg (by push_neg; exact ⟨a9, a10⟩)]
  · intro n
    rfl

/-- A per-user cached quantum key (`self.quantum_keys[user_id]`); times are
seconds as rationals. -/
structure QuantumKeyData where
  key : List Nat
  key_length : Nat
  generated_at : ℚ
  expires_at : ℚ
  simulation_id : String
  qber : ℚ
  security_level : ℚ
  is_synthetic : Bool

/-- `QKDSimulator.get_user_quantum_key`: return the cached entry while
`time.time() < expires_at`, otherwise delete it and return `None`.  The cache
is modelled as a map `user_id → Option entry`; the returned pair is
(result, cache after the call). -/
def get_user_quantum_key (cache : String → Option QuantumKeyData) (now : ℚ)
    (user_id : String) :
    Option QuantumKeyData × (String → Option QuantumKeyData) :=
  match cache user_id with
  | some kd =>
    if now < kd.expires_at then (some kd, cache)
    else (none, fun u => if u = user_id then none else cache u)
  | none => (none, cache)

/-- C9: a cached key whose `expires_at` lies in the past is evicted on the
next access, which returns no key and leaves every other user's entry alone;
an unexpired key is returned with the cache unchanged. -/
theorem key_cache_ttl (cache : String → Option QuantumKeyData) (now : ℚ)
    (user_id : String) (kd : QuantumKeyData) (hc : cache user_id = some kd) :
    (kd.expires_at < now →
      (get_user_quantum_key cache now user_id).1 = none ∧
      (get_user_quantum_key cache now user_id).2 user_id = none ∧
      ∀ u, u ≠ user_id → (get_user_quantum_key cache now user_id).2 u = cache u) ∧
    (now < kd.expires_at →
      (get_user_quantum_key cache now user_id).1 = some kd ∧
      (get_user_quantum_key cache now user_id).2 = cache) := by
  simp only [get_user_quantum_key, hc]
  constructor
  · intro hexp
    rw [if_neg (by exact not_lt.mpr hexp.le)]
    refine ⟨rfl, by simp, ?_⟩
    intro u hu
    simp [hu]
  · intro hfresh
    rw [if_pos hfresh]
    exact ⟨rfl, rfl⟩

/-- A sample cache entry for the C9 witness. -/
def sampleKeyData : QuantumKeyData :=
  ⟨[1, 0, 1], 3, 0, 10, "sim", 0, 19/20, false⟩

/-- A one-entry cache for the C9 witness. -/
def sampleCache : String → Option QuantumKeyData :=
  fun u => if u = "alice" then some sampleKeyData else none

/-- Witness for C9: at time 20 the entry expiring at 10 is gone, at time 5 it
is returned with the cache untouched. -/
theorem key_cache_ttl_witness :
    (get_user_quantum_key sampleCache 20 "alice").1 = none ∧
    (get_user_quantum_key sampleCache 20 "alice").2 "alice" = none ∧
    (get_user_quantum_key sampleCache 5 "alice").1 = some sampleKeyData := by
  have h20 := key_cache_ttl sampleCache 20 "alice" sampleKeyData (by simp [sampleCache])
  have h5 := key_cache_ttl sampleCache 5 "alice" sampleKeyData (by simp [sampleCache])
  have hexp : sampleKeyData.expires_at < 20 := by norm_num [sampleKeyData]
  have hfresh : (5 : ℚ) < sampleKeyData.expires_at := by norm_num [sampleKeyData]
  exact ⟨(h20.1 hexp).1, (h20.1 hexp).2.1, (h5.2 hfresh).1⟩

/-- The fields of a simulation result consulted by
`generate_quantum_key_for_user`.  `runSim` below abstracts `run_simulation`
(the whole BB84 pipeline plus post-processing, randomness included) as a
function of the validated parameters. -/
structure SimResultView where
  final_key_length : Nat
  final_key_sender : List Nat
  qber : ℚ
  security_level : ℚ
  simulation_id : String

/-- The parameter record built for the first key-generation attempt
(all values as written in `generate_quantum_key_for_user`; wavelength is the
dataclass default 1550). -/
def first_params (key_length : Nat) : SimulationParameters :=
  { num_qubits := max (key_length * 50) 2000
    channel_length := 2
    channel_attenuation := 1/10
    wavelength := 1550
    channel_depolarization := 1/1000
    photon_source_efficiency := 19/20
    detector_efficiency := 19/20 }

/-- The parameter record built for the retry: doubled qubits,
`channel_attenuation = 0.01`, efficiencies `0.98`. -/
def retry_params (key_length : Nat) : SimulationParameters :=
  { num_qubits := max (key_length * 50) 2000 * 2
    channel_length := 1
    channel_attenuation := 1/100
    wavelength := 1550
    channel_depolarization := 1/2000
    photon_source_efficiency := 49/50
    detector_efficiency := 49/50 }

theorem first_params_valid (key_length : Nat) :
    mkSimulationParameters (first_params key_length) = .ok (first_params key_length) := by
  unfold mkSimulationParameters first_params validate_parameters
  norm_num
  rfl

theorem retry_params_invalid (key_length : Nat) :
    mkSimulationParameters (retry_params key_length)
      = .error "Channel attenuation must be between 0.05-1.0 dB/km" := by
  unfold mkSimulationParameters retry_params validate_parameters
  norm_num
  rfl

/-- The `while len(synthetic_key) < key_length: synthetic_key +=
available_bits` loop followed by truncation to `key_length`: tile the
available bits.  (`key_length` copies always suffice for a non-empty bit
list.) -/
def tile_bits (key_length : Nat) (avail : List Nat) : List Nat :=
  ((List.replicate key_length avail).flatten).take key_length

/-- The caller-visible outcome of `generate_quantum_key_for_user` (the
remaining dictionary entries echo these fields). -/
structure KeyGenOutcome where
  success : Bool
  error : Option String
  key : List Nat
  is_synthetic : Bool

/-- The simulation phase of `generate_quantum_key_for_user`: build the first
parameter record (validation runs in `__post_init__`), simulate, and when the
final key is shorter than requested build the retry record and simulate
again.  Any `ValueError` escapes to the surrounding `try`. -/
def generate_key_run (runSim : SimulationParameters → SimResultView)
    (key_length : Nat) : Except String SimResultView :=
  match mkSimulationParameters (first_params key_length) with
  | .error e => .error e
  | .ok params =>
    let result := runSim params
    if result.final_key_length < key_length then
      match mkSimulationParameters (retry_params key_length) with
      | .error e => .error e
      | .ok retry => .ok (runSim retry)
    else .ok result

/-- `QKDSimulator.generate_quantum_key_for_user`: run the simulation phase
inside `try/except`; on success cache a real (truncated) or synthetic (tiled,
security_level 0.85) key with TTL `now + 3600` and report it; on any
exception return `success=False` with the error message and leave the cache
alone. -/
def generate_quantum_key_for_user (runSim : SimulationParameters → SimResultView)
    (cache : String → Option QuantumKeyData) (now : ℚ) (user_id : String)
    (key_length : Nat) :
    KeyGenOutcome × (String → Option QuantumKeyData) :=
  match generate_key_run runSim key_length with
  | .error e => (⟨false, some ("Key generation failed: " ++ e), [], false⟩, cache)
  | .ok result =>
    if key_length ≤ result.final_key_length then
      let bits := result.final_key_sender.take key_length
      let kd : QuantumKeyData :=
        ⟨bits, bits.length, now, now + 3600, result.simulation_id,
          result.qber, result.security_level, false⟩
      (⟨true, none, bits, false⟩, fun u => if u = user_id then some kd else cache u)
    else
      let avail := if result.final_key_sender = [] then [0, 1]
        else result.final_key_sender
      let syn := tile_bits key_length avail
      let kd : QuantumKeyData :=
        ⟨syn, syn.length, now, now + 3600, result.simulation_id,
          result.qber, 17/20, true⟩
      (⟨true, none, syn, true⟩, fun u => if u = user_id then some kd else cache u)

/-- C6: whenever the first simulation's final key is shorter than
`key_length`, the retry parameter record
(`channel_attenuation=0.01`, efficiencies `0.98`) fails the simulator's own
`_validate_parameters`, the `ValueError` is swallowed by the surrounding
`try/except`, and the call returns `success=False` with the validator's
message and caches nothing — the synthetic-key fallback promised by the spec
is unreachable. -/
theorem generate_key_retry_dead (runSim : SimulationParameters → SimResultView)
    (cache : String → Option QuantumKeyData) (now : ℚ) (user_id : String)
    (key_length : Nat)
    (hshort : (runSim (first_params key_length)).final_key_length < key_length) :
    (generate_quantum_key_for_user runSim cache now user_id key_length).1.success
        = false ∧
    (generate_quantum_key_for_user runSim cache now user_id key_length).1.error
        = some "Key generation failed: Channel attenuation must be between 0.05-1.0 dB/km" ∧
    (generate_quantum_key_for_user runSim cache now user_id key_length).2 = cache := by
  have hrun : generate_key_run runSim key_length
      = .error "Channel attenuation must be between 0.05-1.0 dB/km" := by
    unfold generate_key_run
    rw [first_params_valid]
    simp only [if_pos hshort, retry_params_invalid]
  unfold generate_quantum_key_for_user
  rw [hrun]
  exact ⟨rfl, rfl, rfl⟩

/-- Witness for C6: a simulation oracle that always produces an empty final
key, requested key length 256. -/
theorem generate_key_retry_dead_witness :
    (generate_quantum_key_for_user (fun _ => ⟨0, [], 0, 19/20, "sim"⟩)
        (fun _ => none) 0 "alice" 256).1.success = false ∧
    (generate_quantum_key_for_user (fun _ => ⟨0, [], 0, 19/20, "sim"⟩)
        (fun _ => none) 0 "alice" 256).1.error
      = some "Key generation failed: Channel attenuation must be between 0.05-1.0 dB/km" ∧
    (generate_quantum_key_for_user (fun _ => ⟨0, [], 0, 19/20, "sim"⟩)
        (fun _ => none) 0 "alice" 256).2 = (fun _ => none) :=
  generate_key_retry_dead (fun _ => ⟨0, [], 0, 19/20, "sim"⟩)
    (fun _ => none) 0 "alice" 256 (by norm_num)

/-! ### Attack detector (attack_models.py)

`AttackDetector.detect_attack` with its default thresholds
(`qber_threshold = 0.10`, `statistical_threshold = 0.03`); `strength` models
`attack_parameters['strength']` when present.  Python's
`sorted(error_distribution)` is an insertion sort here.
-/

def insertNat (x : Nat) : List Nat → List Nat
  | [] => [x]
  | y :: t => if x ≤ y then x :: y :: t else y :: insertNat x t

def sortNat : List Nat → List Nat
  | [] => []
  | x :: t => insertNat x (sortNat t)

/-- `AttackDetector._analyze_error_clustering`: average the gaps between
consecutive sorted error positions and return `max(0, 1 - avg_gap)`. -/
def analyze_error_clustering (error_distribution : List Nat) : ℚ :=
  if error_distribution.length < 2 then 0
  else
    let sorted := sortNat error_distribution
    let distances := (sorted.zip sorted.tail).map (fun p => (p.2 : ℚ) - (p.1 : ℚ))
    if distances = [] then 0
    else max 0 (1 - distances.sum / distances.length)

/-- Python truthiness of the optional `error_distribution` argument. -/
def errTruthy : Option (List Nat) → Bool
  | none => false
  | some l => !l.isEmpty

/-- `AttackDetector._classify_attack`. -/
def classify_attack (qber : ℚ) (error_distribution : Option (List Nat)) : String :=
  if 1/4 < qber then "intercept_resend"
  else if (3/20 : ℚ) < qber ∧ errTruthy error_distribution = true then
    if 3/10 < analyze_error_clustering (error_distribution.getD []) then
      "photon_number_splitting"
    else "intercept_resend"
  else "unknown"

structure DetectionResult where
  attack_detected : Bool
  attack_type : Option String
  confidence : ℚ

/-- `AttackDetector.detect_attack`: three cumulative detection rules (QBER
above threshold, error clustering above threshold, simulated attack strength
above 0.3), then classification when anything fired. -/
def detect_attack (qber_threshold statistical_threshold qber : ℚ)
    (key_length : Nat) (error_distribution : Option (List Nat))
    (strength : Option ℚ) : DetectionResult :=
  let detected1 := decide (qber_threshold < qber)
  let conf1 : ℚ := if qber_threshold < qber
    then min (9/10) ((qber - qber_threshold) / (1/20)) else 0
  let cl := analyze_error_clustering (error_distribution.getD [])
  let detected2 := detected1
    || (errTruthy error_distribution && decide (statistical_threshold < cl))
  let conf2 := if errTruthy error_distribution = true ∧ statistical_threshold < cl
    then max conf1 cl else conf1
  let detected3 := detected2 || (match strength with
    | some s => decide ((3/10 : ℚ) < s)
    | none => false)
  let conf3 := match strength with
    | some s => if (3/10 : ℚ) < s then max conf2 s else conf2
    | none => conf2
  { attack_detected := detected3
    attack_type := if detected3 then some (classify_attack qber error_distribution)
      else none
    confidence := conf3 }

/-- C7 counterexample: low QBER (0.05) with a strong simulated attack
(strength 0.9) — the strength rule fires, `attack_detected = true`, yet the
classifier reports "unknown", contradicting the claim that a detected case is
classified "intercept_resend" and that "unknown" appears only when no rule
triggered. -/
theorem attack_classification_counterexample :
    (detect_attack (1/10) (3/100) (1/20) 100 none (some (9/10))).attack_detected
        = true ∧
    (detect_attack (1/10) (3/100) (1/20) 100 none (some (9/10))).attack_type
        = some "unknown" := by
  have hdet : (detect_attack (1/10) (3/100) (1/20) 100 none
      (some (9/10))).attack_detected = true := by
    simp only [detect_attack, errTruthy, Option.getD, Bool.or_eq_true,
      decide_eq_true_eq]
    norm_num
  refine ⟨hdet, ?_⟩
  simp only [detect_attack, errTruthy, Option.getD, Bool.or_eq_true,
    decide_eq_true_eq] at hdet ⊢
  rw [if_pos hdet]
  simp only [classify_attack, errTruthy, Option.some.injEq]
  rw [if_neg (by norm_num), if_neg (by norm_num [errTruthy])]

/-- C7 (amended): whenever `detect_attack` reports a detection, the reported
type is `_classify_attack(qber, error_distribution)`, which is
"intercept_resend" for qber > 0.25; for 0.15 < qber ≤ 0.25 with a non-empty
error list it is "photon_number_splitting" when clustering > 0.3 and
"intercept_resend" otherwise; and in every other detected case — qber ≤ 0.15,
or qber ≤ 0.25 with a missing/empty error list — it is "unknown", even though
a detection rule (clustering or attack strength) did trigger. -/
theorem attack_classification_amended (qt st qber : ℚ) (key_length : Nat)
    (error_distribution : Option (List Nat)) (strength : Option ℚ)
    (hdet : (detect_attack qt st qber key_length error_distribution
      strength).attack_detected = true) :
    (detect_attack qt st qber key_length error_distribution strength).attack_type
        = some (classify_attack qber error_distribution) ∧
    (1/4 < qber → classify_attack qber error_distribution = "intercept_resend") ∧
    (qber ≤ 1/4 → 3/20 < qber → errTruthy error_distribution = true →
      (3/10 < analyze_error_clustering (error_distribution.getD []) →
        classify_attack qber error_distribution = "photon_number_splitting") ∧
      (analyze_error_clustering (error_distribution.getD []) ≤ 3/10 →
        classify_attack qber error_distribution = "intercept_resend")) ∧
    ((qber ≤ 3/20 ∨ errTruthy error_distribution = false) → qber ≤ 1/4 →
      classify_attack qber error_distribution = "unknown") := by
  refine ⟨?_, ?_, ?_, ?_⟩
  · simp only [detect_attack] at hdet ⊢
    rw [hdet]
    simp
  · intro hq
    unfold classify_attack
    rw [if_pos hq]
  · intro hle hgt htruthy
    constructor
    · intro hcl
      unfold classify_attack
      rw [if_neg (not_lt.mpr hle), if_pos ⟨hgt, htruthy⟩, if_pos hcl]
    · intro hcl
      unfold classify_attack
      rw [if_neg (not_lt.mpr hle), if_pos ⟨hgt, htruthy⟩, if_neg (not_lt.mpr hcl)]
  · intro hor hle
    unfold classify_attack
    rw [if_neg (not_lt.mpr hle)]
    rw [if_neg ?hno]
    case hno =>
      rintro ⟨hgt, htruthy⟩
      rcases hor with hor | hor
      · exact absurd hgt (not_lt.mpr hor)
      · rw [hor] at htruthy
        cases htruthy

/-- Witness for the amended C7: QBER 0.3 fires the first rule and classifies
as intercept-resend. -/
theorem attack_classification_amended_witness :
    (detect_attack (1/10) (3/100) (3/10) 100 (some [1, 2]) none).attack_type
        = some (classify_attack (3/10) (some [1, 2])) ∧
    (1/4 < (3/10 : ℚ) → classify_attack (3/10) (some [1, 2]) = "intercept_resend") ∧
    ((3/10 : ℚ) ≤ 1/4 → 3/20 < (3/10 : ℚ) → errTruthy (some [1, 2]) = true →
      (3/10 < analyze_error_clustering ((some [1, 2] : Option (List Nat)).getD []) →
        classify_attack (3/10) (some [1, 2]) = "photon_number_splitting") ∧
      (analyze_error_clustering ((some [1, 2] : Option (List Nat)).getD []) ≤ 3/10 →
        classify_attack (3/10) (some [1, 2]) = "intercept_resend")) ∧
    (((3/10 : ℚ) ≤ 3/20 ∨ errTruthy (some [1, 2]) = false) → (3/10 : ℚ) ≤ 1/4 →
      classify_attack (3/10) (some [1, 2]) = "unknown") :=
  attack_classification_amended (1/10) (3/100) (3/10) 100 (some [1, 2]) none
    (by
      simp only [detect_attack, errTruthy, Option.getD, Bool.or_eq_true,
        decide_eq_true_eq]
      norm_num)

/-! ### Cascade reconciliation (reconciliation.py)

`CascadeProtocol.reconcile` for a fresh instance (`rounds_completed` and
`bits_revealed` start at 0).  `_create_blocks` in `random` mode shuffles the
index list with a seeded Mersenne Twister that has no Lean counterpart, so
the block layout is a parameter `blocksOf key_length block_size round_num`;
the claim's property is proved for every block layout, and the concrete
counterexample uses the `sequential` mode, which is translated exactly
(`create_blocks_seq`).  Binary search (`_find_error_in_block`) is driven by a
fuel argument equal to the block length, which strictly bounds the recursion
depth. -/

/-- Parity of the key bits selected by a block of indices
(`sum(key[i] for i in block) % 2`). -/
def listParity (key : List Nat) (idxs : List Nat) : Nat :=
  (idxs.map (fun i => key.getD i 0)).sum % 2

/-- `CascadeProtocol._find_error_in_block`: split the block at `len // 2` and
recurse into the half whose parities disagree; a singleton block is the error
when the bits differ there. -/
def findErrGo (s r : List Nat) : Nat → List Nat → Option Nat
  | _, [] => none
  | _, [i] => if s.getD i 0 ≠ r.getD i 0 then some i else none
  | 0, _ => none
  | fuel + 1, block =>
    let left := block.take (block.length / 2)
    let right := block.drop (block.length / 2)
    if listParity s left ≠ listParity r left then findErrGo s r fuel left
    else findErrGo s r fuel right

def find_error_in_block (s r block : List Nat) : Option Nat :=
  findErrGo s r block.length block

/-- Any position returned by the binary search carries a genuine bit
disagreement. -/
theorem findErrGo_spec (s r : List Nat) :
    ∀ (fuel : Nat) (block : List Nat) (i : Nat),
      findErrGo s r fuel block = some i → s.getD i 0 ≠ r.getD i 0 := by
  intro fuel
  induction fuel with
  | zero =>
    intro block i h
    match block with
    | [] => cases h
    | [j] =>
      simp only [findErrGo] at h
      split at h
      · rename_i hne
        cases h
        exact hne
      · cases h
    | a :: b :: t => cases h
  | succ n ih =>
    intro block i h
    match block with
    | [] => cases h
    | [j] =>
      simp only [findErrGo] at h
      split at h
      · rename_i hne
        cases h
        exact hne
      · cases h
    | a :: b :: t =>
      simp only [findErrGo] at h
      split at h
      · exact ih _ i h
      · exact ih _ i h

/-- Number of positions where two equal-length keys disagree. -/
def hammingDistance : List Nat → List Nat → Nat
  | x :: xs, y :: ys => (if x ≠ y then 1 else 0) + hammingDistance xs ys
  | _, _ => 0

theorem getD_ne_lt (s r : List Nat) (hsr : r.length = s.length) (p : Nat)
    (hne : s.getD p 0 ≠ r.getD p 0) : p < r.length := by
  by_contra hge
  push_neg at hge
  apply hne
  rw [List.getD_eq_default, List.getD_eq_default]
  · omega
  · omega

theorem hammingDistance_set (s : List Nat) :
    ∀ (r : List Nat) (p : Nat), s.length = r.length → p < r.length →
      s.getD p 0 ≠ r.getD p 0 →
      hammingDistance s (r.set p (s.getD p 0)) + 1 = hammingDistance s r := by
  induction s with
  | nil =>
    intro r p h hp _
    rw [← h] at hp
    simp at hp
  | cons x xs ih =>
    intro r p h hp hne
    cases r with
    | nil => simp at hp
    | cons y ys =>
      cases p with
      | zero =>
        simp only [List.getD_cons_zero] at hne ⊢
        simp only [List.set_cons_zero]
        simp only [hammingDistance, if_neg (by simp : ¬(x ≠ x)), if_pos hne]
        omega
      | succ n =>
        simp only [List.getD_cons_succ] at hne ⊢
        simp only [List.set_cons_succ]
        simp only [List.length_cons] at h hp
        have := ih ys n (by omega) (by omega) hne
        simp only [hammingDistance]
        omega

/-- The receiver key, corrected-error list and revealed-position set mutated
across one `reconcile` call. -/
structure CascadeState where
  receiver : List Nat
  error_positions : List Nat
  revealed : List Nat
deriving DecidableEq

/-- One block of one Cascade round: on parity mismatch, binary-search the
error, copy the sender's bit over it, record the position. -/
def processBlock (sender : List Nat) (st : CascadeState) (block : List Nat) :
    CascadeState :=
  if block.length < 2 then st
  else if listParity sender block ≠ listParity st.receiver block then
    match find_error_in_block sender st.receiver block with
    | some p =>
      { receiver := st.receiver.set p (sender.getD p 0)
        error_positions := st.error_positions ++ [p]
        revealed := if p ∈ st.revealed then st.revealed else st.revealed ++ [p] }
    | none => st
  else st

theorem processBlock_inv (sender : List Nat) (st : CascadeState)
    (block : List Nat) (hlen : st.receiver.length = sender.length) :
    (processBlock sender st block).receiver.length = sender.length ∧
    hammingDistance sender (processBlock sender st block).receiver
      + (processBlock sender st block).error_positions.length
      = hammingDistance sender st.receiver + st.error_positions.length := by
  unfold processBlock
  split
  · exact ⟨hlen, rfl⟩
  split
  · cases hfind : find_error_in_block sender st.receiver block with
    | none => exact ⟨hlen, rfl⟩
    | some p =>
      have hne := findErrGo_spec sender st.receiver block.length block p hfind
      have hp : p < st.receiver.length :=
        getD_ne_lt sender st.receiver hlen p hne
      have hset := hammingDistance_set sender st.receiver p hlen.symm hp hne
      constructor
      · simp only [List.length_set]
        exact hlen
      · simp only [List.length_append, List.length_cons, List.length_nil]
        omega
  · exact ⟨hlen, rfl⟩

theorem processRound_inv (sender : List Nat) (blocks : List (List Nat)) :
    ∀ st : CascadeState, st.receiver.length = sender.length →
      ((blocks.foldl (processBlock sender) st).receiver.length = sender.length ∧
       hammingDistance sender (blocks.foldl (processBlock sender) st).receiver
         + (blocks.foldl (processBlock sender) st).error_positions.length
         = hammingDistance sender st.receiver + st.error_positions.length) := by
  induction blocks with
  | nil =>
    intro st h
    exact ⟨h, rfl⟩
  | cons b rest ih =>
    intro st h
    obtain ⟨h1, h2⟩ := processBlock_inv sender st b h
    obtain ⟨h3, h4⟩ := ih (processBlock sender st b) h1
    simp only [List.foldl_cons]
    exact ⟨h3, by omega⟩

/-- `self._calculate_qber(...) < 0.001`, the early-exit test of the round
loop (equal-length keys; the empty key has QBER 0.0 which passes). -/
def qber_lt_em3 (s r : List Nat) : Bool :=
  if s.length ≠ r.length then false
  else if r.length = 0 then true
  else decide (hammingDistance s r * 1000 < r.length)

/-- The `for round_num in range(max_rounds)` loop of `reconcile`: process the
round's blocks, halve the block size (floor 2), stop early when the QBER
drops below 0.001.  Returns the final state and `rounds_completed`. -/
def cascadeLoopGo (sender : List Nat) (blocksOf : Nat → Nat → List (List Nat)) :
    Nat → Nat → Nat → CascadeState → CascadeState × Nat
  | 0, round_num, _, st => (st, round_num)
  | rem + 1, round_num, block_size, st =>
    let st2 := (blocksOf block_size round_num).foldl (processBlock sender) st
    if qber_lt_em3 sender st2.receiver then (st2, round_num + 1)
    else cascadeLoopGo sender blocksOf rem (round_num + 1) (max 2 (block_size / 2)) st2

theorem cascadeLoopGo_inv (sender : List Nat)
    (blocksOf : Nat → Nat → List (List Nat)) :
    ∀ (rem round_num block_size : Nat) (st : CascadeState),
      st.receiver.length = sender.length →
      ((cascadeLoopGo sender blocksOf rem round_num block_size st).1.receiver.length
          = sender.length ∧
       hammingDistance sender
          (cascadeLoopGo sender blocksOf rem round_num block_size st).1.receiver
         + (cascadeLoopGo sender blocksOf rem round_num block_size
             st).1.error_positions.length
         = hammingDistance sender st.receiver + st.error_positions.length) := by
  intro rem
  induction rem with
  | zero =>
    intro round_num block_size st h
    exact ⟨h, rfl⟩
  | succ n ih =>
    intro round_num block_size st h
    obtain ⟨h1, h2⟩ := processRound_inv sender (blocksOf block_size round_num) st h
    simp only [cascadeLoopGo]
    split
    · exact ⟨h1, h2⟩
    · obtain ⟨h3, h4⟩ := ih (round_num + 1) (max 2 (block_size / 2))
        ((blocksOf block_size round_num).foldl (processBlock sender) st) h1
      exact ⟨h3, by omega⟩

structure ReconciliationResult where
  corrected_key_sender : List Nat
  corrected_key_receiver : List Nat
  discarded_positions : List Nat
  rounds_required : Nat
  bits_revealed : Nat
  success_rate : ℚ
  final_key_length : Nat

/-- `CascadeProtocol.reconcile` on a fresh instance: four rounds starting at
block size 64, then
`success_rate = 1 - len(error_positions) / key_length` — the count of
CORRECTED errors, not the errors remaining.  Unequal lengths raise
`ValueError`; an empty key reaches `0 / 0` and raises `ZeroDivisionError`. -/
def cascade_reconcile (blocksOf : Nat → Nat → Nat → List (List Nat))
    (key_sender key_receiver : List Nat) : Except String ReconciliationResult :=
  if key_sender.length ≠ key_receiver.length then .error "Key lengths must match"
  else
    let out := cascadeLoopGo key_sender (blocksOf key_sender.length) 4 0 64
      ⟨key_receiver, [], []⟩
    if key_sender.length = 0 then .error "ZeroDivisionError: division by zero"
    else .ok {
      corrected_key_sender := key_sender
      corrected_key_receiver := out.1.receiver
      discarded_positions := out.1.revealed
      rounds_required := out.2
      bits_revealed := out.1.error_positions.length
      success_rate := 1 - (out.1.error_positions.length : ℚ) / key_sender.length
      final_key_length := key_sender.length - out.1.revealed.length }

/-- `_create_blocks` in `sequential` mode: consecutive index blocks, keeping
those with at least 2 indices. -/
def create_blocks_seq (key_length block_size : Nat) : List (List Nat) :=
  (chunksPos block_size (List.range key_length)).filter (fun b => 2 ≤ b.length)

def seqBlocksOf : Nat → Nat → Nat → List (List Nat) :=
  fun key_length block_size _round => create_blocks_seq key_length block_size

/-- C4 counterexample: sender `[0,0]`, receiver `[1,0]` (one error).  Cascade
finds and corrects the single error, so no errors remain between the
corrected keys and the claimed formula yields 1; the code reports
`success_rate = 1 - 1/2 = 0.5`, counting the corrected error. -/
theorem cascade_success_rate_counterexample :
    ∃ res, cascade_reconcile seqBlocksOf [0, 0] [1, 0] = .ok res ∧
      hammingDistance [0, 0] res.corrected_key_receiver = 0 ∧
      res.success_rate = 1 / 2 ∧
      res.success_rate ≠ 1 - (0 : ℚ) / 2 := by
  have hout : cascadeLoopGo [0, 0] (seqBlocksOf 2) 4 0 64 ⟨[1, 0], [], []⟩
      = (⟨[0, 0], [0], [0]⟩, 1) := by decide
  have hrec : cascade_reconcile seqBlocksOf [0, 0] [1, 0]
      = .ok ⟨[0, 0], [0, 0], [0], 1, 1, 1 - ((1 : Nat) : ℚ) / 2, 1⟩ := by
    unfold cascade_reconcile
    rw [if_neg (by decide)]
    simp only [hout]
    rfl
  refine ⟨_, hrec, by decide, ?_, ?_⟩
  · show 1 - ((1 : Nat) : ℚ) / 2 = 1 / 2
    norm_num
  · show 1 - ((1 : Nat) : ℚ) / 2 ≠ 1 - (0 : ℚ) / 2
    norm_num

/-- C4 (amended): for every pair of equal-length non-empty keys (and every
block layout, covering both parity-selection modes), `reconcile` succeeds and
`success_rate` equals `1 - corrected/key_length`, where `corrected` is the
number of errors the protocol corrected — the initial Hamming distance minus
the errors remaining between the corrected keys.  The claimed
`1 - remaining/key_length` holds only when no error survives all rounds. -/
theorem cascade_success_rate_amended (blocksOf : Nat → Nat → Nat → List (List Nat))
    (key_sender key_receiver : List Nat)
    (hlen : key_sender.length = key_receiver.length)
    (hne : key_sender ≠ []) :
    ∃ res, cascade_reconcile blocksOf key_sender key_receiver = .ok res ∧
      res.success_rate
        = 1 - ((hammingDistance key_sender key_receiver
            - hammingDistance key_sender res.corrected_key_receiver : Nat) : ℚ)
          / key_sender.length := by
  obtain ⟨hL, hinv⟩ := cascadeLoopGo_inv key_sender (blocksOf key_sender.length)
    4 0 64 ⟨key_receiver, [], []⟩ hlen.symm
  unfold cascade_reconcile
  rw [if_neg (by omega)]
  rw [if_neg (by
    intro h
    exact hne (List.eq_nil_of_length_eq_zero h))]
  refine ⟨_, rfl, ?_⟩
  simp only [List.length_nil, Nat.add_zero] at hinv
  have hcnt : (cascadeLoopGo key_sender (blocksOf key_sender.length) 4 0 64
      ⟨key_receiver, [], []⟩).1.error_positions.length
      = hammingDistance key_sender key_receiver
        - hammingDistance key_sender (cascadeLoopGo key_sender
            (blocksOf key_sender.length) 4 0 64
            ⟨key_receiver, [], []⟩).1.receiver := by
    omega
  simp only
  rw [hcnt]

/-- Witness for the amended C4 at the concrete pair `[0,0]`, `[1,0]`. -/
theorem cascade_success_rate_amended_witness :
    ∃ res, cascade_reconcile seqBlocksOf [0, 0] [1, 0] = .ok res ∧
      res.success_rate
        = 1 - ((hammingDistance [0, 0] [1, 0]
            - hammingDistance [0, 0] res.corrected_key_receiver : Nat) : ℚ) / 2 :=
  cascade_success_rate_amended seqBlocksOf [0, 0] [1, 0] (by decide) (by decide)

/-! ### BB84 protocol tail (bb84_protocol.py)

The post-sifting stages of `BB84Protocol.execute_protocol`: error estimation,
the built-in reconciliation (`_perform_reconciliation`) and privacy
amplification (`_perform_privacy_amplification`), and the final keys.
`random.sample(error_positions, k)` is abstracted as `pick` (the source
guarantees `k ≤ len`, so the call cannot raise; `pick [] 0 = []` is how any
sampler behaves on the empty list).  `int(n * 0.6)`, `int(k * 0.8)` and
`int(k * 0.98)` are written as exact integer arithmetic; the empty-key path
proved here only exercises them at 0.  Every Python operation on this path is
otherwise total (guarded indexing, guarded division), which is how the
absence of exceptions is rendered in the embedding. -/

/-- `error_positions = [i for i, (s, r) in enumerate(zip(...)) if s != r]`. -/
def error_positions_of (s r : List Nat) : List Nat :=
  (List.range (min s.length r.length)).filter (fun i => s.getD i 0 ≠ r.getD i 0)

/-- `BB84Protocol._perform_reconciliation`: correct a 0.6 fraction of the
estimated errors, chosen by `random.sample` (`pick`); out-of-range positions
are skipped. -/
def perform_reconciliation (pick : List Nat → Nat → List Nat)
    (key_sender key_receiver : List Nat) (error_positions : List Nat) :
    List Nat × List Nat :=
  let num_to_correct := (error_positions.length * 3) / 5
  let errors_to_correct := pick error_positions
    (min num_to_correct error_positions.length)
  let fixed := errors_to_correct.foldl
    (fun (r : List Nat) p => if p < r.length then r.set p (key_sender.getD p 0) else r)
    key_receiver
  (key_sender, fixed)

/-- `BB84Protocol._perform_privacy_amplification`: truncate the sender's
reconciled key to 80% (short keys) or 98% of its length, with a floor of one
bit; the same `privacy_amplified_key` becomes both parties' final key via
`_generate_final_key`. -/
def perform_privacy_amplification_builtin (key_sender : List Nat) : List Nat :=
  let key_length := key_sender.length
  let final_length := if key_length < 10 then max 1 ((key_length * 4) / 5)
    else max 1 ((key_length * 98) / 100)
  key_sender.take final_length

/-- The observable outcome of the post-sifting protocol stages. -/
structure ProtocolTail where
  sifted_qber : ℚ
  reconciled_key_sender : List Nat
  reconciled_key_receiver : List Nat
  final_key_sender : List Nat
  final_key_receiver : List Nat

/-- The error-estimation → reconciliation → privacy-amplification →
completion stages of `execute_protocol`, as a function of the sifted keys. -/
def execute_protocol_tail (pick : List Nat → Nat → List Nat)
    (sifted_key_sender sifted_key_receiver : List Nat) : ProtocolTail :=
  let error_positions := error_positions_of sifted_key_sender sifted_key_receiver
  let sq : ℚ := if 0 < sifted_key_sender.length
    then (error_positions.length : ℚ) / sifted_key_sender.length else 0
  let recon := perform_reconciliation pick sifted_key_sender sifted_key_receiver
    error_positions
  let final := perform_privacy_amplification_builtin recon.1
  ⟨sq, recon.1, recon.2, final, final⟩

/-- C8: with empty sifted keys the sifted QBER is exactly 0 and the
reconciliation, privacy amplification and completion stages all run to the
end (no Python operation on this path can raise; the embedding is total) and
produce empty reconciled and final keys. -/
theorem empty_sifted_short_circuit (pick : List Nat → Nat → List Nat)
    (hpick : pick [] 0 = []) :
    (execute_protocol_tail pick [] []).sifted_qber = 0 ∧
    (execute_protocol_tail pick [] []).reconciled_key_sender = [] ∧
    (execute_protocol_tail pick [] []).reconciled_key_receiver = [] ∧
    (execute_protocol_tail pick [] []).final_key_sender = [] ∧
    (execute_protocol_tail pick [] []).final_key_receiver = [] := by
  have hrecon : perform_reconciliation pick [] [] [] = ([], []) := by
    unfold perform_reconciliation
    simp only [List.length_nil]
    rw [show (0 * 3 / 5 : Nat) = 0 from rfl, Nat.min_self, hpick]
    rfl
  simp only [execute_protocol_tail]
  rw [show error_positions_of [] [] = [] from rfl, hrecon]
  refine ⟨rfl, rfl, rfl, rfl, rfl⟩

/-- Witness for C8 with `pick = take`. -/
theorem empty_sifted_short_circuit_witness :
    (execute_protocol_tail (fun l k => l.take k) [] []).sifted_qber = 0 ∧
    (execute_protocol_tail (fun l k => l.take k) [] []).reconciled_key_sender = [] ∧
    (execute_protocol_tail (fun l k => l.take k) [] []).reconciled_key_receiver = [] ∧
    (execute_protocol_tail (fun l k => l.take k) [] []).final_key_sender = [] ∧
    (execute_protocol_tail (fun l k => l.take k) [] []).final_key_receiver = [] :=
  empty_sifted_short_circuit (fun l k => l.take k) rfl

end QKDSpec
